import Mathlib

/-!
Verification of the mantaflow particle-system / vortex-filament core
(`source/particle.h`, `source/vortexfilament.cpp`) against its
natural-language specification.

The C++ code is shallowly embedded: the templated particle container
`ParticleSystem<BasicParticleData>` and its connected refinement
`ConnectedParticleSystem<BasicParticleData, VortexRing>` become explicit
record types over lists; loops with mutable indices become fuel-indexed
structural recursions proved to run to completion under the loop bounds
of the source.  Scalar data is kept generic in a commutative ring (the
store-level claims are data-agnostic); geometric claims instantiate at
`ℚ` (exact arithmetic, executable) or `ℝ` (trigonometric geometry).
-/

namespace Manta

/-! ### List helpers (array reads/writes with a default, as the C++ indexing) -/

/-- Read `l[i]`, returning `dflt` out of range (C++ access is caller-checked). -/
def lget {α : Type} (l : List α) (i : ℕ) (dflt : α) : α := l.getD i dflt

/-- Write `l[i] := a` (no-op out of range, as `List.set`). -/
def lset {α : Type} (l : List α) (i : ℕ) (a : α) : List α := l.set i a

/-! ### Data model (`particle.h`)

`ParticleBase::ParticleType`: `PDELETE = (1<<10)` marks a record for
removal in a later `compress()` step.  `BasicParticleData` carries a
3-vector position and a flag bitset. -/

/-- Flag bit `PDELETE = 1 << 10` from `ParticleBase::ParticleType`. -/
def PDELETE : ℕ := 1024

/-- 3-component vector, generic in the scalar type (`Vec3` of the source). -/
structure V3 (α : Type) where
  x : α
  y : α
  z : α
deriving DecidableEq

/-- `BasicParticleData`: position plus flag bitset. -/
structure BasicParticleData (α : Type) where
  pos : V3 α
  flag : ℕ
deriving DecidableEq

/-- `VortexRing` (from `vortexfilament.h`, used by `vortexfilament.cpp`):
circulation, cyclic list of particle indices, flag bitset. -/
structure VortexRing (α : Type) where
  circulation : α
  indices : List ℤ
  flag : ℕ
deriving DecidableEq

/-- State of `ConnectedParticleSystem<BasicParticleData, VortexRing>`
(= `VortexFilamentSystem`): particle data, segment list, dirty-delete
counter `mDeletes` and chunk threshold `mDeleteChunk`. -/
structure VFS (α : Type) where
  data : List (BasicParticleData α)
  segments : List (VortexRing α)
  deletes : ℕ
  deleteChunk : ℕ
deriving DecidableEq

/-- A record is live iff its `PDELETE` bit is clear (`isActive`). -/
def liveFlag (f : ℕ) : Prop := f &&& PDELETE = 0

instance (f : ℕ) : Decidable (liveFlag f) := by
  unfold liveFlag; infer_instance

/-- Default particle record used for out-of-range reads. -/
def dfltP {α : Type} [Zero α] : BasicParticleData α :=
  ⟨⟨0, 0, 0⟩, 0⟩

/-- `DELETE_PART = 20`: chunk size for compression. -/
def DELETE_PART : ℕ := 20

/-! ### `ParticleSystem::add` and `ParticleSystem::kill` -/

/-- `add`: append the record, recompute
`mDeleteChunk = mData.size() / DELETE_PART`. -/
def addP {α : Type} (s : VFS α) (p : BasicParticleData α) : VFS α :=
  { s with data := s.data ++ [p],
           deleteChunk := (s.data.length + 1) / DELETE_PART }

/-! ### `ConnectedParticleSystem::compress` (`particle.h` lines 169-204)

The reorder loop walks `i` forward; on a dead slot it pulls the record at
`--nextRead` into slot `i`, zeroes the vacated flag, and records
`renumber_back[i] = nextRead` — using `if`, so the pulled record is *not*
re-examined (unlike the `while` of `ParticleSystem::compress`).  Fuel
bounds the recursion; `nextRead - i` shrinks every step, so fuel
`nextRead` suffices from the initial call. -/

/-- `mData[nextRead].flag = 0`: zero the vacated slot's flags. -/
def clearDel {α : Type} (p : BasicParticleData α) : BasicParticleData α :=
  ⟨p.pos, 0⟩

def reorderLoop {α : Type} [Zero α] (fuel : ℕ) (d : List (BasicParticleData α))
    (rb : List ℤ) (i nr : ℕ) : List (BasicParticleData α) × List ℤ × ℕ :=
  match fuel with
  | 0 => (d, rb, nr)
  | fuel + 1 =>
    if i < nr then
      if liveFlag (lget d i dfltP).flag then
        reorderLoop fuel d (lset rb i (i : ℤ)) (i + 1) nr
      else
        reorderLoop fuel
          (lset (lset d i (lget d (nr - 1) dfltP)) (nr - 1)
            (clearDel (lget d (nr - 1) dfltP)))
          (lset rb i ((nr - 1 : ℕ) : ℤ)) (i + 1) (nr - 1)
    else (d, rb, nr)

/-- The acceleration pass: `for i < nr: renumber[renumber_back[i]] = i`. -/
def buildRen (rb : List ℤ) (ren : List ℤ) (i : ℕ) : ℕ → List ℤ
  | 0 => ren
  | c + 1 => buildRen rb (lset ren (lget rb i (-1)).toNat (i : ℤ)) (i + 1) c

/-- `VortexRing::renumber` (`vortexfilament.cpp` lines 23-26):
rewrite every stored index through the table. -/
def renumberRing {α : Type} (ren : List ℤ) (r : VortexRing α) : VortexRing α :=
  { r with indices := r.indices.map (fun j => lget ren j.toNat (-1)) }

/-- `ConnectedParticleSystem::compress`: reorder the particle data
producing `renumber_back`, build the `renumber` table, renumber every
segment, shrink the data to `nextRead`, reset the counters. -/
def compressC {α : Type} [Zero α] (s : VFS α) : VFS α :=
  let sz := s.data.length
  let out := reorderLoop sz s.data (List.replicate sz (-1)) 0 sz
  let d' := out.1
  let rb := out.2.1
  let nr := out.2.2
  let ren := buildRen rb (List.replicate sz (-1)) 0 nr
  { data := d'.take nr,
    segments := s.segments.map (renumberRing ren),
    deletes := 0,
    deleteChunk := nr / DELETE_PART }

/-- The state right after `kill` marks slot `i` and bumps `mDeletes`,
before the conditional compress. -/
def markDead {α : Type} [Zero α] (s : VFS α) (i : ℕ) : VFS α :=
  let p := lget s.data i dfltP
  { s with data := lset s.data i { p with flag := p.flag ||| PDELETE },
           deletes := s.deletes + 1 }

/-- `kill`: set the `PDELETE` bit, bump `mDeletes`, and compress once the
counter exceeds `mDeleteChunk` (virtual dispatch resolves to
`ConnectedParticleSystem::compress` for the filament system). -/
def killP {α : Type} [Zero α] (s : VFS α) (i : ℕ) : VFS α :=
  let s' := markDead s i
  if s'.deleteChunk < s'.deletes then compressC s' else s'

/-- One add/kill instruction, for describing reachable store states. -/
inductive StoreOp (α : Type) where
  | add (p : BasicParticleData α)
  | kill (i : ℕ)

/-- Run a sequence of insertions and deletion markings from a state. -/
def runOps {α : Type} [Zero α] (s : VFS α) : List (StoreOp α) → VFS α
  | [] => s
  | StoreOp.add p :: rest => runOps (addP s p) rest
  | StoreOp.kill i :: rest => runOps (killP s i) rest

/-- The empty system (`clear()` / fresh construction). -/
def emptyVFS {α : Type} : VFS α := ⟨[], [], 0, 0⟩

/-- Number of live (not delete-marked) records in the store. -/
def liveCount {α : Type} (s : VFS α) : ℕ :=
  (s.data.filter (fun p => decide (liveFlag p.flag))).length

/-- Reachable store state on which `ConnectedParticleSystem::compress`
leaves a delete-marked record behind: 20 insertions, mark slot 5, one
more insertion, mark slot 20.  The final `kill` pushes `mDeletes` past
`mDeleteChunk` and triggers the compress, which pulls the dead tail
record of slot 20 into the dead slot 5 and, moving on with `if` rather
than re-checking, keeps it there. -/
def c1FailState : VFS ℚ :=
  runOps emptyVFS
    (List.replicate 20 (StoreOp.add dfltP) ++
      [StoreOp.kill 5, StoreOp.add dfltP, StoreOp.kill 20])

/-- Reachable state refuting the "threshold = live count / 20" reading:
100 insertions, five deletion markings (none of which trigger a
compress), then one more insertion. -/
def c8FailState : VFS ℚ :=
  runOps emptyVFS
    (List.replicate 100 (StoreOp.add dfltP) ++
      [StoreOp.kill 0, StoreOp.kill 1, StoreOp.kill 2, StoreOp.kill 3,
       StoreOp.kill 4, StoreOp.add dfltP])

/-- Default segment record for out-of-range reads. -/
def dfltR {α : Type} [Zero α] : VortexRing α := ⟨0, [], 0⟩

/-- A system holding one live particle and one delete-marked segment. -/
def c9FailState : VFS ℚ :=
  { data := [dfltP], segments := [⟨1, [0], PDELETE⟩], deletes := 0,
    deleteChunk := 0 }

/-! ### `KnAdvectInGrid` (`particle.h` lines 130-140)

The velocity field, flag grid and integrator are consumed external
interfaces (spec section 6); they enter as opaque functions.  The scalar
type is `ℚ` (exact arithmetic model of the `Real` coordinates). -/

instance {α : Type} [Add α] : Add (V3 α) :=
  ⟨fun a b => ⟨a.x + b.x, a.y + b.y, a.z + b.z⟩⟩

instance {α : Type} [Zero α] : Zero (V3 α) := ⟨⟨0, 0, 0⟩⟩

/-- Per-particle body of the `KnAdvectInGrid` kernel: skip inactive
particles; advance the position by the integrator's displacement; mark
`PDELETE` iff the updated position is out of bounds or in an obstacle
*and* its x coordinate exceeds 5. -/
def knAdvectInGrid (isInBounds isObstacle : V3 ℚ → Bool)
    (integrate : V3 ℚ → V3 ℚ) (p : BasicParticleData ℚ) :
    BasicParticleData ℚ :=
  if liveFlag p.flag then
    let pos' := p.pos + integrate p.pos
    if ((!isInBounds pos' || isObstacle pos') && decide (5 < pos'.x) : Bool) then
      ⟨pos', p.flag ||| PDELETE⟩
    else ⟨pos', p.flag⟩
  else p

/-- The kernel applied across the whole particle sequence. -/
def advectInGrid (isInBounds isObstacle : V3 ℚ → Bool)
    (integrate : V3 ℚ → V3 ℚ) (s : VFS ℚ) : VFS ℚ :=
  { s with data := s.data.map (knAdvectInGrid isInBounds isObstacle integrate) }

/-! ### Vector operations (`vectorbase.h` interface) -/

instance {α : Type} [Sub α] : Sub (V3 α) :=
  ⟨fun a b => ⟨a.x - b.x, a.y - b.y, a.z - b.z⟩⟩

/-- Scalar multiple of a 3-vector. -/
def smulV {α : Type} [Mul α] (c : α) (v : V3 α) : V3 α :=
  ⟨c * v.x, c * v.y, c * v.z⟩

/-- Dot product. -/
def dotV {α : Type} [Mul α] [Add α] (a b : V3 α) : α :=
  a.x * b.x + a.y * b.y + a.z * b.z

/-- `normSquare`: squared Euclidean norm. -/
def normSq {α : Type} [Mul α] [Add α] (v : V3 α) : α := dotV v v

/-- Cross product. -/
def crossV {α : Type} [Mul α] [Sub α] (a b : V3 α) : V3 α :=
  ⟨a.y * b.z - a.z * b.y, a.z * b.x - a.x * b.z, a.x * b.y - a.y * b.x⟩

/-! ### `VortexFilamentSystem::remesh` (`vortexfilament.cpp` lines 105-144)

Scalars are `ℚ` (exact-arithmetic model of `Real`).  The ring accessors
`idx0`/`idx1`/`idx` live in `vortexfilament.h`, which is not under
`src/`; they are modelled from the spec: edge `j` connects `indices[j]`
to `indices[(j+1) mod N]`, and `idx` wraps cyclically (negative offsets
included). -/

/-- Modelled from the spec: `VortexRing::idx0` — start index of edge `j`. -/
def ringIdx0 {α : Type} (r : VortexRing α) (j : ℕ) : ℤ := lget r.indices j (-1)

/-- Modelled from the spec: `VortexRing::idx1` — end index of edge `j`,
`indices[(j+1) mod N]`. -/
def ringIdx1 {α : Type} (r : VortexRing α) (j : ℕ) : ℤ :=
  lget r.indices ((j + 1) % r.indices.length) (-1)

/-- Modelled from the spec: `VortexRing::idx` — cyclic access with
wraparound, defined for negative offsets as well. -/
def ringIdxC {α : Type} (r : VortexRing α) (i : ℤ) : ℤ :=
  lget r.indices (i % (r.indices.length : ℤ)).toNat (-1)

/-- Position of the particle record referenced by a ring index. -/
def posAt {α : Type} [Zero α] (d : List (BasicParticleData α)) (idx : ℤ) :
    V3 α :=
  (lget d idx.toNat dfltP).pos

/-- Modelled from the spec: `crTangent` (`interpol.h` is not under
`src/`) — Catmull-Rom tangent at the middle point from its two
neighbours, `(p2 - p0) / 2`. -/
def crTangent (p0 _p1 p2 : V3 ℚ) : V3 ℚ := smulV (1/2 : ℚ) (p2 - p0)

/-- Modelled from the spec: `hermiteSpline` (`interpol.h` is not under
`src/`) — cubic Hermite interpolation of the segment `[p0, p1]` with
endpoint tangents `m0`, `m1`, evaluated at parameter `t`. -/
def hermiteSpline (p0 p1 m0 m1 : V3 ℚ) (t : ℚ) : V3 ℚ :=
  smulV (2*t^3 - 3*t^2 + 1) p0 + smulV (t^3 - 2*t^2 + t) m0 +
    smulV (-2*t^3 + 3*t^2) p1 + smulV (t^3 - t^2) m1

/-- The edge scan of one remesh pass: for each edge `j` of the ring,
if the squared edge length exceeds `maxLen²`, append the Hermite
midpoint to the store (`add`) and record `(j + offset, new index)` in
the insertion map, incrementing `offset`.  `c` counts the remaining
edges of the `oldLen`-edge scan. -/
def scanEdges (maxLen2 : ℚ) (r : VortexRing ℚ) :
    ℕ → VFS ℚ → List (ℕ × ℤ) → ℕ → ℕ → VFS ℚ × List (ℕ × ℤ)
  | 0, s, ins, _, _ => (s, ins)
  | c + 1, s, ins, offset, j =>
    let p0 := posAt s.data (ringIdx0 r j)
    let p1 := posAt s.data (ringIdx1 r j)
    if maxLen2 < normSq (p1 - p0) then
      let pm1 := posAt s.data (ringIdxC r ((j : ℤ) - 1))
      let p2 := posAt s.data (ringIdxC r ((j : ℤ) + 2))
      let mp := hermiteSpline p0 p1 (crTangent pm1 p0 p1)
        (crTangent p0 p1 p2) (1/2)
      scanEdges maxLen2 r c (addP s ⟨mp, 0⟩)
        (ins ++ [(j + offset, (s.data.length : ℤ))]) (offset + 1) (j + 1)
    else scanEdges maxLen2 r c s ins offset (j + 1)

/-- The downward renumbering loop of the pass: positions are filled from
`newLen - 1` down to `0`; a position in the insertion map gets the new
particle index, any other position pops the next original index
(`r.indices[num--]`, with `cnt = num + 1`). -/
def renumRebuild (ins : List (ℕ × ℤ)) (old : List ℤ) :
    ℕ → ℕ → List ℤ → List ℤ
  | 0, _, acc => acc
  | j + 1, cnt, acc =>
    match List.lookup j ins with
    | some v => renumRebuild ins old j cnt (v :: acc)
    | none => renumRebuild ins old j (cnt - 1) (lget old (cnt - 1) (-1) :: acc)

/-- One `for(;;)` iteration of `remesh` for ring `ri`: scan all edges,
and either stop (`insert.empty()`) or splice the recorded midpoints into
the ring's index list (`r.indices.resize(newLen)` plus the downward
renumbering loop). -/
def remeshPass (maxLen2 : ℚ) (s : VFS ℚ) (ri : ℕ) : VFS ℚ × Bool :=
  if (scanEdges maxLen2 (lget s.segments ri dfltR)
      (lget s.segments ri dfltR).indices.length s [] 1 0).2.isEmpty then
    ((scanEdges maxLen2 (lget s.segments ri dfltR)
      (lget s.segments ri dfltR).indices.length s [] 1 0).1, true)
  else
    (VFS.mk
      (scanEdges maxLen2 (lget s.segments ri dfltR)
        (lget s.segments ri dfltR).indices.length s [] 1 0).1.data
      (lset (scanEdges maxLen2 (lget s.segments ri dfltR)
          (lget s.segments ri dfltR).indices.length s [] 1 0).1.segments ri
        (VortexRing.mk (lget s.segments ri dfltR).circulation
          (renumRebuild (scanEdges maxLen2 (lget s.segments ri dfltR)
              (lget s.segments ri dfltR).indices.length s [] 1 0).2
            (lget s.segments ri dfltR).indices
            ((lget s.segments ri dfltR).indices.length
              + (scanEdges maxLen2 (lget s.segments ri dfltR)
                (lget s.segments ri dfltR).indices.length s [] 1 0).2.length)
            (lget s.segments ri dfltR).indices.length [])
          (lget s.segments ri dfltR).flag))
      (scanEdges maxLen2 (lget s.segments ri dfltR)
        (lget s.segments ri dfltR).indices.length s [] 1 0).1.deletes
      (scanEdges maxLen2 (lget s.segments ri dfltR)
        (lget s.segments ri dfltR).indices.length s [] 1 0).1.deleteChunk,
      false)

/-- The per-ring `for(;;)` loop, fuel-bounded: repeat passes until one
makes no insertion. -/
def remeshRing (maxLen2 : ℚ) : ℕ → VFS ℚ → ℕ → Option (VFS ℚ)
  | 0, _, _ => none
  | fuel + 1, s, ri =>
    let out := remeshPass maxLen2 s ri
    if out.2 then some out.1 else remeshRing maxLen2 fuel out.1 ri

/-- The outer loop over all segments (ring `ri` and `c` further rings).
Note: the source iterates over *every* segment, with no
`isSegActive` check. -/
def remeshFrom (maxLen2 : ℚ) (fuel : ℕ) : ℕ → ℕ → VFS ℚ → Option (VFS ℚ)
  | 0, _, s => some s
  | c + 1, ri, s =>
    match remeshRing maxLen2 fuel s ri with
    | none => none
    | some s' => remeshFrom maxLen2 fuel c (ri + 1) s'

/-- `VortexFilamentSystem::remesh(maxLen)`, fuel-bounded: `none` models a
run whose per-ring loop exceeded the fuel. -/
def remesh (maxLen : ℚ) (fuel : ℕ) (s : VFS ℚ) : Option (VFS ℚ) :=
  remeshFrom (maxLen * maxLen) fuel s.segments.length 0 s

/-- Number of positions below `j` that are not keys of the insertion
map. -/
def nonkeysBelow (ins : List (ℕ × ℤ)) (j : ℕ) : ℕ :=
  ((List.range j).filter (fun p => (List.lookup p ins).isNone)).length

/-- Edge `j` of ring `r` is longer than `maxLen` (squared comparison, as
in the source). -/
def edgeLong (maxLen2 : ℚ) (d : List (BasicParticleData ℚ))
    (r : VortexRing ℚ) (j : ℕ) : Prop :=
  maxLen2 < normSq (posAt d (ringIdx1 r j) - posAt d (ringIdx0 r j))

/-- Every ring index references an in-range store slot (the store
invariant of the spec's data model). -/
def ringInv (s : VFS ℚ) : Prop :=
  ∀ r ∈ s.segments, ∀ x ∈ r.indices, 0 ≤ x ∧ x.toNat < s.data.length

instance (s : VFS ℚ) : Decidable (ringInv s) := by
  unfold ringInv; infer_instance

/-- A system with one delete-marked two-point ring whose edges are long:
`remesh` processes it even though it is dead. -/
def c6FailState : VFS ℚ :=
  { data := [⟨⟨0, 0, 0⟩, 0⟩, ⟨⟨2, 0, 0⟩, 0⟩],
    segments := [⟨1, [0, 1], PDELETE⟩], deletes := 0, deleteChunk := 0 }

/-- The dead ring of `c6FailState`. -/
def c6Ring0 : VortexRing ℚ := ⟨1, [0, 1], PDELETE⟩

/-- The dead ring after one remesh pass: midpoints spliced in. -/
def c6Ring1 : VortexRing ℚ := ⟨1, [0, 2, 1, 3], PDELETE⟩

/-- Store contents after the first scan of `c6FailState` (two Hermite
midpoints appended). -/
def c6S2 : VFS ℚ :=
  { data := [⟨⟨0, 0, 0⟩, 0⟩, ⟨⟨2, 0, 0⟩, 0⟩, ⟨⟨1, 0, 0⟩, 0⟩, ⟨⟨1, 0, 0⟩, 0⟩],
    segments := [c6Ring0], deletes := 0, deleteChunk := 0 }

/-- Result of `remesh (3/2)` on `c6FailState`: the dead ring was
subdivided. -/
def c6Final : VFS ℚ :=
  { data := [⟨⟨0, 0, 0⟩, 0⟩, ⟨⟨2, 0, 0⟩, 0⟩, ⟨⟨1, 0, 0⟩, 0⟩, ⟨⟨1, 0, 0⟩, 0⟩],
    segments := [c6Ring1], deletes := 0, deleteChunk := 0 }

/-! ### Real-valued geometry (`vortexfilament.cpp` over `Real` scalars)

`Real` is modelled by `ℝ`.  `vectorbase.h` is not under `src/`; `norm`
and `normalize`/`getNormalized` are modelled from the spec and standard
vector algebra, with the zero vector left unchanged by normalization. -/

/-- Euclidean norm of a 3-vector. -/
noncomputable def normV (v : V3 ℝ) : ℝ := Real.sqrt (normSq v)

/-- Modelled from the spec: `normalize`/`getNormalized` (`vectorbase.h`
is not under `src/`) — scale a nonzero vector to unit length, leave the
zero vector unchanged. -/
noncomputable def normalizeV (v : V3 ℝ) : V3 ℝ :=
  if normSq v = 0 then v else smulV (1 / normV v) v

/-- The particle/index loop of `VortexFilamentSystem::addRing`: insert
`count` particles at angles `phi = i/number * 2π` on the circle of the
given radius around `position` in the `u`/`v` plane, collecting the new
store indices (`add` returns `mData.size()-1`). -/
noncomputable def addRingLoop (position : V3 ℝ) (radius : ℝ) (u v : V3 ℝ)
    (number : ℕ) : ℕ → ℕ → VFS ℝ → List ℤ → VFS ℝ × List ℤ
  | 0, _, s, acc => (s, acc)
  | c + 1, i, s, acc =>
    addRingLoop position radius u v number c (i + 1)
      (addP s ⟨position + smulV radius
        (smulV (Real.cos ((i : ℝ) / (number : ℝ) * Real.pi * 2)) u +
          smulV (Real.sin ((i : ℝ) / (number : ℝ) * Real.pi * 2)) v), 0⟩)
      (acc ++ [(s.data.length : ℤ)])

/-- `VortexFilamentSystem::addRing` (`vortexfilament.cpp` lines
280-298): normalize the normal, pick the reference axis `(0,1,0)` unless
the normal is within `1e-5` of it (then `(1,0,0)`), build the in-plane
basis `u = normalize(normal × worldup)`, `v = normalize(normal × u)`,
insert the `number` particles, and push one new segment carrying the
circulation and the collected indices (ring flag clear, per the
`VortexRing(circulation)` constructor modelled from the spec). -/
noncomputable def addRing (s : VFS ℝ) (position : V3 ℝ)
    (circulation radius : ℝ) (normal0 : V3 ℝ) (number : ℕ) : VFS ℝ :=
  VFS.mk
    (addRingLoop position radius
      (normalizeV (crossV (normalizeV normal0)
        (if normV (normalizeV normal0 - ⟨0, 1, 0⟩) < 1e-5 then ⟨1, 0, 0⟩
          else ⟨0, 1, 0⟩)))
      (normalizeV (crossV (normalizeV normal0)
        (normalizeV (crossV (normalizeV normal0)
          (if normV (normalizeV normal0 - ⟨0, 1, 0⟩) < 1e-5 then ⟨1, 0, 0⟩
            else ⟨0, 1, 0⟩)))))
      number number 0 s []).1.data
    ((addRingLoop position radius
      (normalizeV (crossV (normalizeV normal0)
        (if normV (normalizeV normal0 - ⟨0, 1, 0⟩) < 1e-5 then ⟨1, 0, 0⟩
          else ⟨0, 1, 0⟩)))
      (normalizeV (crossV (normalizeV normal0)
        (normalizeV (crossV (normalizeV normal0)
          (if normV (normalizeV normal0 - ⟨0, 1, 0⟩) < 1e-5 then ⟨1, 0, 0⟩
            else ⟨0, 1, 0⟩)))))
      number number 0 s []).1.segments ++
      [VortexRing.mk circulation
        (addRingLoop position radius
          (normalizeV (crossV (normalizeV normal0)
            (if normV (normalizeV normal0 - ⟨0, 1, 0⟩) < 1e-5 then ⟨1, 0, 0⟩
              else ⟨0, 1, 0⟩)))
          (normalizeV (crossV (normalizeV normal0)
            (normalizeV (crossV (normalizeV normal0)
              (if normV (normalizeV normal0 - ⟨0, 1, 0⟩) < 1e-5 then ⟨1, 0, 0⟩
                else ⟨0, 1, 0⟩)))))
          number number 0 s []).2 0])
    (addRingLoop position radius
      (normalizeV (crossV (normalizeV normal0)
        (if normV (normalizeV normal0 - ⟨0, 1, 0⟩) < 1e-5 then ⟨1, 0, 0⟩
          else ⟨0, 1, 0⟩)))
      (normalizeV (crossV (normalizeV normal0)
        (normalizeV (crossV (normalizeV normal0)
          (if normV (normalizeV normal0 - ⟨0, 1, 0⟩) < 1e-5 then ⟨1, 0, 0⟩
            else ⟨0, 1, 0⟩)))))
      number number 0 s []).1.deletes
    (addRingLoop position radius
      (normalizeV (crossV (normalizeV normal0)
        (if normV (normalizeV normal0 - ⟨0, 1, 0⟩) < 1e-5 then ⟨1, 0, 0⟩
          else ⟨0, 1, 0⟩)))
      (normalizeV (crossV (normalizeV normal0)
        (normalizeV (crossV (normalizeV normal0)
          (if normV (normalizeV normal0 - ⟨0, 1, 0⟩) < 1e-5 then ⟨1, 0, 0⟩
            else ⟨0, 1, 0⟩)))))
      number number 0 s []).1.deleteChunk

/-! ### `FilamentIntegrator::kernel` (`vortexfilament.cpp` lines 39-63)

The regularized Biot-Savart summation over all live ring edges; the
member `mA2` (written `a2` in the source body) is the squared
regularization, `mCutoff2` the squared cutoff, and the per-ring strength
is `mStrength * r.circulation`. -/

/-- Contribution of edge `j` of ring `r` to the induced velocity at
query point `xi`: zero when either endpoint is beyond the cutoff or
within the `1e-6` singularity guard, otherwise the regularized
line-segment formula. -/
noncomputable def biotSavartEdge (str a2 cutoff2 : ℝ) (y : List (V3 ℝ))
    (r : VortexRing ℝ) (j : ℕ) (xi : V3 ℝ) : V3 ℝ :=
  if cutoff2 < normSq (lget y (ringIdx0 r j).toNat ⟨0, 0, 0⟩ - xi) ∨
      cutoff2 < normSq (lget y (ringIdx1 r j).toNat ⟨0, 0, 0⟩ - xi) ∨
      normSq (lget y (ringIdx0 r j).toNat ⟨0, 0, 0⟩ - xi) < 1e-6 ∨
      normSq (lget y (ringIdx1 r j).toNat ⟨0, 0, 0⟩ - xi) < 1e-6 then
    ⟨0, 0, 0⟩
  else
    smulV (str * (dotV (lget y (ringIdx1 r j).toNat ⟨0, 0, 0⟩ - xi)
          (normalizeV (lget y (ringIdx1 r j).toNat ⟨0, 0, 0⟩
            - lget y (ringIdx0 r j).toNat ⟨0, 0, 0⟩))
          * (1 / Real.sqrt (a2 +
              normSq (lget y (ringIdx1 r j).toNat ⟨0, 0, 0⟩ - xi)))
        - dotV (lget y (ringIdx0 r j).toNat ⟨0, 0, 0⟩ - xi)
          (normalizeV (lget y (ringIdx1 r j).toNat ⟨0, 0, 0⟩
            - lget y (ringIdx0 r j).toNat ⟨0, 0, 0⟩))
          * (1 / Real.sqrt (a2 +
              normSq (lget y (ringIdx0 r j).toNat ⟨0, 0, 0⟩ - xi))))
      / (a2 + normSq (crossV (lget y (ringIdx0 r j).toNat ⟨0, 0, 0⟩ - xi)
          (normalizeV (lget y (ringIdx1 r j).toNat ⟨0, 0, 0⟩
            - lget y (ringIdx0 r j).toNat ⟨0, 0, 0⟩)))))
    (crossV (lget y (ringIdx0 r j).toNat ⟨0, 0, 0⟩ - xi)
      (normalizeV (lget y (ringIdx1 r j).toNat ⟨0, 0, 0⟩
        - lget y (ringIdx0 r j).toNat ⟨0, 0, 0⟩)))

/-- Accumulated contribution of all `N` edges of one ring. -/
noncomputable def biotSavartRing (strength a2 cutoff2 : ℝ) (y : List (V3 ℝ))
    (r : VortexRing ℝ) (xi : V3 ℝ) : V3 ℝ :=
  (List.range r.indices.length).foldl
    (fun u j => u + biotSavartEdge (strength * r.circulation) a2 cutoff2 y r
      j xi) ⟨0, 0, 0⟩

/-- `FilamentIntegrator::kernel`: sum over every ring, skipping rings
flagged `PDELETE`. -/
noncomputable def filamentKernel (strength a2 cutoff2 : ℝ)
    (rings : List (VortexRing ℝ)) (y : List (V3 ℝ)) (xi : V3 ℝ) : V3 ℝ :=
  rings.foldl
    (fun u r => if liveFlag r.flag then
        u + biotSavartRing strength a2 cutoff2 y r xi
      else u) ⟨0, 0, 0⟩

/-- The first in-plane basis vector chosen by `addRing`:
`u = getNormalized(cross(normal, worldup))` with the worldup rerouting
for normals within `1e-5` of `(0,1,0)`. -/
noncomputable def ringU (normal0 : V3 ℝ) : V3 ℝ :=
  normalizeV (crossV (normalizeV normal0)
    (if normV (normalizeV normal0 - ⟨0, 1, 0⟩) < 1e-5 then ⟨1, 0, 0⟩
      else ⟨0, 1, 0⟩))

/-- The second in-plane basis vector chosen by `addRing`:
`v = getNormalized(cross(normal, u))`. -/
noncomputable def ringV (normal0 : V3 ℝ) : V3 ℝ :=
  normalizeV (crossV (normalizeV normal0) (ringU normal0))

/-! ### Darboux machinery (`vortexfilament.cpp` lines 166-278)

`Quaternion` (`quaternion.h` is not under `src/`) is modelled from the
spec: Hamilton quaternions with the `(Vec3, Real)` constructor
(imaginary part, real part), the Hamilton product, the
conjugate-over-squared-norm inverse, and the `imag()` projection. -/

structure Quat where
  w : ℝ
  x : ℝ
  y : ℝ
  z : ℝ

/-- Modelled from the spec: the `Quaternion(Vec3, Real)` constructor. -/
def vecQuat (v : V3 ℝ) (r : ℝ) : Quat := ⟨r, v.x, v.y, v.z⟩

/-- Modelled from the spec: the Hamilton product. -/
noncomputable def quatMul (a b : Quat) : Quat :=
  ⟨a.w * b.w - a.x * b.x - a.y * b.y - a.z * b.z,
   a.w * b.x + a.x * b.w + a.y * b.z - a.z * b.y,
   a.w * b.y - a.x * b.z + a.y * b.w + a.z * b.x,
   a.w * b.z + a.x * b.y - a.y * b.x + a.z * b.w⟩

/-- Modelled from the spec: squared quaternion norm. -/
noncomputable def quatNormSq (q : Quat) : ℝ :=
  q.w * q.w + q.x * q.x + q.y * q.y + q.z * q.z

/-- Modelled from the spec: quaternion inverse, conjugate divided by the
squared norm. -/
noncomputable def quatInverse (q : Quat) : Quat :=
  ⟨q.w / quatNormSq q, -q.x / quatNormSq q, -q.y / quatNormSq q,
   -q.z / quatNormSq q⟩

/-- Modelled from the spec: `imag()`, the vector part. -/
def quatImag (q : Quat) : V3 ℝ := ⟨q.x, q.y, q.z⟩

/-- `darbouxStep` (`vortexfilament.cpp` lines 185-190): conjugate the
pure quaternion `lT` by `(lT - S, -r)`. -/
noncomputable def darbouxStep (Si lTi : V3 ℝ) (r : ℝ) : V3 ℝ :=
  quatImag (quatMul (quatMul (vecQuat (lTi - Si) (-r)) (vecQuat lTi 0))
    (quatInverse (vecQuat (lTi - Si) (-r))))

/-- `monodromy` (`vortexfilament.cpp` lines 192-201): fold `darbouxStep`
over the edges `gamma[(i+1)%N] - gamma[i]`. -/
noncomputable def monodromy (gamma : List (V3 ℝ)) (lT1 : V3 ℝ) (r : ℝ) :
    V3 ℝ :=
  (List.range gamma.length).foldl
    (fun lT i => darbouxStep
      (lget gamma ((i + 1) % gamma.length) ⟨0, 0, 0⟩
        - lget gamma i ⟨0, 0, 0⟩) lT r) lT1

/-- The iteration loop of `powerMethod` (`vortexfilament.cpp` lines
203-216), fuel = remaining iterations; `none` models `return false`. -/
noncomputable def powerLoop (gamma : List (V3 ℝ)) (r : ℝ) :
    ℕ → V3 ℝ → Option (V3 ℝ)
  | 0, _ => none
  | k + 1, lT =>
    if normV (monodromy gamma lT r - lT) < 1e-4 then
      some (monodromy gamma lT r)
    else powerLoop gamma r k (monodromy gamma lT r)

/-- `powerMethod`: start from `(0,0,l)` and run at most 100 iterations. -/
noncomputable def powerMethod (gamma : List (V3 ℝ)) (l r : ℝ) :
    Option (V3 ℝ) :=
  powerLoop gamma r 100 ⟨0, 0, l⟩

/-- The output scan of `darboux` (`vortexfilament.cpp` lines 224-228):
`to[i] = from[i] + lT`, then advance `lT` by `darbouxStep` on edge `i`. -/
noncomputable def darbouxLoop (gamma : List (V3 ℝ)) (r : ℝ) :
    ℕ → ℕ → V3 ℝ → List (V3 ℝ)
  | 0, _, _ => []
  | c + 1, i, lT =>
    (lget gamma i ⟨0, 0, 0⟩ + lT) ::
      darbouxLoop gamma r c (i + 1)
        (darbouxStep (lget gamma ((i + 1) % gamma.length) ⟨0, 0, 0⟩
          - lget gamma i ⟨0, 0, 0⟩) lT r)

/-- `darboux` (`vortexfilament.cpp` lines 218-230): run the power
method; on convergence scan out the transformed nodes. -/
noncomputable def darboux (gammaFrom : List (V3 ℝ)) (l r : ℝ) :
    Option (List (V3 ℝ)) :=
  match powerMethod gammaFrom l r with
  | none => none
  | some lT => some (darbouxLoop gammaFrom r gammaFrom.length 0 lT)

/-! ### `doublyDiscreteUpdate` (`vortexfilament.cpp` lines 233-278)

`FilamentKernel` (declared outside `src/`) is modelled from the spec as
the single-edge regularized Biot-Savart contribution, with the same
cutoff/epsilon guards as `FilamentIntegrator::kernel`. -/

/-- Modelled from the spec: `FilamentKernel(p0, p1, circ, 1.0, cutoff,
a).evaluate(x)` — regularized Biot-Savart contribution of one edge. -/
noncomputable def fkEvaluate (p0 p1 : V3 ℝ) (circ cutoff a : ℝ)
    (x : V3 ℝ) : V3 ℝ :=
  if cutoff ^ 2 < normSq (p0 - x) ∨ cutoff ^ 2 < normSq (p1 - x) ∨
      normSq (p0 - x) < 1e-6 ∨ normSq (p1 - x) < 1e-6 then ⟨0, 0, 0⟩
  else
    smulV (0.25 / Real.pi * circ *
        (dotV (p1 - x) (normalizeV (p1 - p0))
            * (1 / Real.sqrt (a ^ 2 + normSq (p1 - x)))
          - dotV (p0 - x) (normalizeV (p1 - p0))
            * (1 / Real.sqrt (a ^ 2 + normSq (p0 - x))))
        / (a ^ 2 + normSq (crossV (p0 - x) (normalizeV (p1 - p0)))))
      (crossV (p0 - x) (normalizeV (p1 - p0)))

/-- The regular n-polygon node of `evaluateRefU` (`vortexfilament.cpp`
lines 166-183): radius `0.5*(L/N)/sin(pi/N)`, angle `2*pi*i/N`. -/
noncomputable def polyPos (N : ℕ) (L : ℝ) (i : ℕ) : V3 ℝ :=
  ⟨0.5 * (L / (N : ℝ)) / Real.sin (Real.pi / (N : ℝ))
      * Real.cos (2 * Real.pi * (i : ℝ) / (N : ℝ)),
    0.5 * (L / (N : ℝ)) / Real.sin (Real.pi / (N : ℝ))
      * Real.sin (2 * Real.pi * (i : ℝ) / (N : ℝ)), 0⟩

/-- `evaluateRefU`: impact of edges `1..N-2` of the reference polygon on
node 0 (`for (i=1; i<N-1; i++)`). -/
noncomputable def evaluateRefU (N : ℕ) (L circ reg : ℝ) : ℝ :=
  normV ((List.range (N - 2)).foldl
    (fun acc k => acc + fkEvaluate (polyPos N L (k + 1))
      (polyPos N L (k + 2)) circ 1e10 reg (polyPos N L 0)) ⟨0, 0, 0⟩)

/-- `gamma[i] = mData[r.indices[i]].pos` (`vortexfilament.cpp` line
249). -/
def ringGamma (dat : List (BasicParticleData ℝ)) (rg : VortexRing ℝ) :
    List (V3 ℝ) :=
  rg.indices.map (fun ix => (lget dat ix.toNat dfltP).pos)

/-- The arc length `L` of a ring (`vortexfilament.cpp` lines 243-245). -/
noncomputable def ringArcLen (dat : List (BasicParticleData ℝ))
    (rg : VortexRing ℝ) : ℝ :=
  (List.range rg.indices.length).foldl
    (fun acc i => acc
      + normV (posAt dat (ringIdx0 rg i) - posAt dat (ringIdx1 rg i))) 0

/-- The reference velocity `U` (`vortexfilament.cpp` line 254). -/
noncomputable def ddU (circ L reg : ℝ) : ℝ :=
  0.5 * circ / L * (Real.log (4 * L / (Real.pi * reg)) - 1)

/-- The displacement `d = 0.5*dt*(U - Ur)` (`vortexfilament.cpp` line
256). -/
noncomputable def ddD (dt reg : ℝ) (dat : List (BasicParticleData ℝ))
    (rg : VortexRing ℝ) : ℝ :=
  0.5 * dt * (ddU rg.circulation (ringArcLen dat rg) reg
    - evaluateRefU rg.indices.length (ringArcLen dat rg)
        rg.circulation reg)

/-- The companion edge length `l = sqrt((L/N)^2 + d^2)`
(`vortexfilament.cpp` line 257). -/
noncomputable def ddEll (dt reg : ℝ) (dat : List (BasicParticleData ℝ))
    (rg : VortexRing ℝ) : ℝ :=
  Real.sqrt ((ringArcLen dat rg / (rg.indices.length : ℝ)) ^ 2
    + (ddD dt reg dat rg) ^ 2)

/-- The curvature parameter `ra = d*tan(pi*(0.5 - 1/N))`
(`vortexfilament.cpp` line 258). -/
noncomputable def ddRa (dt reg : ℝ) (dat : List (BasicParticleData ℝ))
    (rg : VortexRing ℝ) : ℝ :=
  ddD dt reg dat rg * Real.tan (Real.pi * (0.5
    - 1 / (rg.indices.length : ℝ)))

/-- Overwrite the position of the record at store index `ix`, keeping
its flag. -/
def setPos (dat : List (BasicParticleData ℝ)) (ix : ℤ) (p : V3 ℝ) :
    List (BasicParticleData ℝ) :=
  lset dat ix.toNat ⟨p, (lget dat ix.toNat dfltP).flag⟩

/-- The copy-back loop (`vortexfilament.cpp` lines 274-276):
`mData[r.indices[i]].pos = gamma[i]`. -/
def writeBack (dat : List (BasicParticleData ℝ)) (rg : VortexRing ℝ)
    (g : List (V3 ℝ)) : List (BasicParticleData ℝ) :=
  (List.range rg.indices.length).foldl
    (fun d i => setPos d (lget rg.indices i (-1)) (lget g i ⟨0, 0, 0⟩))
    dat

/-- The per-ring body of `doublyDiscreteUpdate`: forward Darboux, then
backward with `-ra`; on either failure return the data unchanged plus a
diagnostic message code (0 = forward failed, 1 = backward failed). -/
noncomputable def ringStep (dt reg : ℝ)
    (dat : List (BasicParticleData ℝ)) (rg : VortexRing ℝ) :
    List (BasicParticleData ℝ) × List ℕ :=
  match darboux (ringGamma dat rg) (ddEll dt reg dat rg)
      (ddRa dt reg dat rg) with
  | none => (dat, [0])
  | some eta =>
    match darboux eta (ddEll dt reg dat rg) (-ddRa dt reg dat rg) with
    | none => (dat, [1])
    | some g => (writeBack dat rg g, [])

/-- `doublyDiscreteUpdate` (`vortexfilament.cpp` lines 233-278): fold
the per-ring step over all segments, skipping inactive ones, collecting
diagnostics. -/
noncomputable def doublyDiscreteUpdate (dt reg : ℝ) (s : VFS ℝ) :
    List (BasicParticleData ℝ) × List ℕ :=
  s.segments.foldl
    (fun acc rg => if liveFlag rg.flag then
        ((ringStep dt reg acc.1 rg).1, acc.2 ++ (ringStep dt reg acc.1 rg).2)
      else acc) (s.data, [])

/-! ### The planar unit square, input for the `r = 0` Darboux runs -/

/-- The planar unit square ring: a regular 4-gon of circumradius 1 with
edge length `sqrt 2`. -/
def sqGamma : List (V3 ℝ) := [⟨1, 0, 0⟩, ⟨0, 1, 0⟩, ⟨-1, 0, 0⟩, ⟨0, -1, 0⟩]

/-- Result of the forward `r = 0` Darboux transform on `sqGamma`: the
same square shifted backward by one vertex. -/
def sqEta : List (V3 ℝ) := [⟨0, -1, 0⟩, ⟨1, 0, 0⟩, ⟨0, 1, 0⟩, ⟨-1, 0, 0⟩]

/-- Result of the backward transform on `sqEta`: the square shifted by
two vertices relative to `sqGamma`. -/
def sqG2 : List (V3 ℝ) := [⟨-1, 0, 0⟩, ⟨0, -1, 0⟩, ⟨1, 0, 0⟩, ⟨0, 1, 0⟩]

/-! ### Theorems -/

theorem length_lset {α : Type} (l : List α) (i : ℕ) (a : α) :
    (lset l i a).length = l.length := by
  simp [lset]

theorem lget_lset_self {α : Type} (l : List α) (i : ℕ) (a : α) (d : α)
    (h : i < l.length) : lget (lset l i a) i d = a := by
  induction l generalizing i with
  | nil => simp at h
  | cons b t ih =>
    cases i with
    | zero => simp [lget, lset]
    | succ n =>
      simp only [lget, lset, List.set, List.getD] at *
      exact ih n (by simpa using h)

theorem lget_lset_ne {α : Type} (l : List α) (i j : ℕ) (a : α) (d : α)
    (h : i ≠ j) : lget (lset l i a) j d = lget l j d := by
  induction l generalizing i j with
  | nil => simp [lget, lset]
  | cons b t ih =>
    cases i with
    | zero =>
      cases j with
      | zero => exact absurd rfl h
      | succ m => simp [lget, lset]
    | succ n =>
      cases j with
      | zero => simp [lget, lset]
      | succ m =>
        simp only [lget, lset, List.set, List.getD] at *
        exact ih n m (fun hc => h (by omega))

theorem lget_of_ge {α : Type} (l : List α) (i : ℕ) (d : α) (h : l.length ≤ i) :
    lget l i d = d := by
  simp [lget, List.getD, List.getElem?_eq_none h]

/-- Setting the `PDELETE` bit is visible through the mask. -/
theorem land_lor_pdelete (f : ℕ) : (f ||| PDELETE) &&& PDELETE = PDELETE := by
  have h1024 : PDELETE = 2 ^ 10 := by norm_num [PDELETE]
  rw [h1024]
  apply Nat.eq_of_testBit_eq
  intro i
  simp only [Nat.testBit_and, Nat.testBit_or, Nat.testBit_two_pow]
  by_cases h : 10 = i <;> simp [h]

/-- `C1`: concrete violation of "no record carries the `PDELETE` flag
after compress".  On the reachable state `c1FailState` the connected
compress (triggered inside the final `kill`) leaves the store with 20
records of which slot 5 still carries `PDELETE`: the dead tail record
pulled into a dead slot is not re-examined (`if` in
`ConnectedParticleSystem::compress` versus `while` in
`ParticleSystem::compress`). -/
theorem c1_dead_record_survives_compress :
    c1FailState.data.length = 20 ∧
      ¬ liveFlag (lget c1FailState.data 5 dfltP).flag ∧
      c1FailState.deletes = 0 := by
  decide

theorem lget_map {α β : Type} (f : α → β) (l : List α) (k : ℕ) (d : β)
    (d' : α) (h : k < l.length) : lget (l.map f) k d = f (lget l k d') := by
  induction l generalizing k with
  | nil => simp at h
  | cons b t ih =>
    cases k with
    | zero => simp [lget]
    | succ n =>
      simp only [lget, List.map, List.getD] at *
      exact ih n (by simpa using h)

set_option maxRecDepth 10000 in
/-- `C8` counterexample: on the reachable state `c8FailState`
(100 insertions, five deletion markings, one more insertion) the chunk
threshold recomputed by `add` is `101 / 20 = 5`, while the live record
count is 96 and `96 / 20 = 4`: the code divides the *total* record count
(delete-marked records included), not the live count. -/
theorem c8_threshold_uses_total_size :
    c8FailState.deleteChunk = 5 ∧ liveCount c8FailState = 96 ∧
      liveCount c8FailState / DELETE_PART = 4 := by
  decide

/-- `C8` as amended: `add` appends and recomputes the chunk threshold as
the *total* record count (including delete-marked records) divided by
`DELETE_PART = 20`; `kill` sets the `PDELETE` flag, increments the dirty
counter, and triggers the compress exactly when the incremented counter
exceeds the threshold (observed through the counter reset). -/
theorem c8_amended {α : Type} [Zero α] (s : VFS α) (p : BasicParticleData α)
    (i : ℕ) (hi : i < s.data.length) :
    (addP s p).data = s.data ++ [p] ∧
      (addP s p).deleteChunk = (s.data.length + 1) / DELETE_PART ∧
      ¬ liveFlag (lget (markDead s i).data i dfltP).flag ∧
      (markDead s i).deletes = s.deletes + 1 ∧
      ((killP s i).deletes = 0 ↔ s.deleteChunk < s.deletes + 1) ∧
      (s.deletes + 1 ≤ s.deleteChunk → killP s i = markDead s i) := by
  refine ⟨rfl, rfl, ?_, rfl, ?_, ?_⟩
  · intro hlive
    have hflag : (lget (markDead s i).data i dfltP).flag
        = (lget s.data i dfltP).flag ||| PDELETE := by
      simp only [markDead]
      rw [lget_lset_self _ _ _ _ hi]
    rw [liveFlag, hflag, land_lor_pdelete] at hlive
    exact absurd hlive (by norm_num [PDELETE])
  · unfold killP
    by_cases h : (markDead s i).deleteChunk < (markDead s i).deletes
    · rw [if_pos h]
      have hc : s.deleteChunk < s.deletes + 1 := by simpa [markDead] using h
      exact ⟨fun _ => hc, fun _ => rfl⟩
    · rw [if_neg h]
      simp only [markDead] at h ⊢
      constructor
      · intro h0; omega
      · intro hlt; omega
  · intro hle
    unfold killP
    rw [if_neg]
    simp only [markDead]
    omega

/-- Closed witness for `c8_amended` at a one-particle store. -/
theorem c8_amended_witness :
    (0 : ℕ) < (VFS.mk [dfltP] [] 0 0 : VFS ℚ).data.length ∧
      ((addP (VFS.mk [dfltP] [] 0 0 : VFS ℚ) dfltP).data = [dfltP] ++ [dfltP] ∧
        (addP (VFS.mk [dfltP] [] 0 0 : VFS ℚ) dfltP).deleteChunk
            = (([dfltP] : List (BasicParticleData ℚ)).length + 1) / DELETE_PART ∧
        ¬ liveFlag (lget (markDead (VFS.mk [dfltP] [] 0 0 : VFS ℚ) 0).data 0 dfltP).flag ∧
        (markDead (VFS.mk [dfltP] [] 0 0 : VFS ℚ) 0).deletes = 0 + 1 ∧
        ((killP (VFS.mk [dfltP] [] 0 0 : VFS ℚ) 0).deletes = 0 ↔ 0 < 0 + 1) ∧
        (0 + 1 ≤ 0 → killP (VFS.mk [dfltP] [] 0 0 : VFS ℚ) 0
            = markDead (VFS.mk [dfltP] [] 0 0 : VFS ℚ) 0)) :=
  ⟨by decide, c8_amended (VFS.mk [dfltP] [] 0 0 : VFS ℚ) dfltP 0 (by decide)⟩

/-- `C9` counterexample: the only compaction in the code,
`ConnectedParticleSystem::compress`, does not remove delete-marked
segments: on a system with one dead segment, the segment sequence still
holds that dead segment afterwards.  (No segment dirty counter or
segment compaction exists anywhere in the source.) -/
theorem c9_dead_segment_persists :
    (compressC c9FailState).segments.length = 1 ∧
      ¬ liveFlag (lget (compressC c9FailState).segments 0 dfltR).flag := by
  decide

/-- `C9` as amended: `compress` preserves the segment sequence's length
and every segment's flag and circulation (it only rewrites indices);
delete-marked segments are never physically removed. -/
theorem c9_amended {α : Type} [Zero α] (s : VFS α) (k : ℕ)
    (hk : k < s.segments.length) :
    (compressC s).segments.length = s.segments.length ∧
      (lget (compressC s).segments k dfltR).flag
          = (lget s.segments k dfltR).flag ∧
      (lget (compressC s).segments k dfltR).circulation
          = (lget s.segments k dfltR).circulation := by
  have hmap : (compressC s).segments = s.segments.map
      (renumberRing (buildRen (reorderLoop s.data.length s.data
        (List.replicate s.data.length (-1)) 0 s.data.length).2.1
        (List.replicate s.data.length (-1)) 0
        (reorderLoop s.data.length s.data
          (List.replicate s.data.length (-1)) 0 s.data.length).2.2)) := rfl
  refine ⟨by rw [hmap, List.length_map], ?_, ?_⟩ <;>
    rw [hmap, lget_map _ _ _ _ dfltR hk] <;> rfl

theorem lget_take {α : Type} (l : List α) (n k : ℕ) (d : α) (h : k < n) :
    lget (l.take n) k d = lget l k d := by
  induction l generalizing n k with
  | nil => simp [lget]
  | cons b t ih =>
    cases n with
    | zero => omega
    | succ m =>
      cases k with
      | zero => simp [lget]
      | succ k' =>
        simp only [lget, List.take, List.getD] at *
        exact ih m k' (by omega)

/-- Behaviour of the reorder pass of `ConnectedParticleSystem::compress`.
For the loop `reorderLoop fuel d rb i nr` with enough fuel:
lengths are preserved; `nextRead` shrinks but not below `min i nr`;
already-processed slots (`< i`) are untouched; every kept slot
`k ∈ [i, nr')` holds the record of data slot `renumber_back[k]`; and every
live record in `[i, nr)` survives at the slot recorded for it in
`renumber_back`. -/
theorem reorderLoop_spec {α : Type} [Zero α] (fuel : ℕ) :
    ∀ (d : List (BasicParticleData α)) (rb : List ℤ) (i nr : ℕ),
    nr ≤ i + fuel → nr ≤ d.length → rb.length = d.length →
    (reorderLoop fuel d rb i nr).1.length = d.length ∧
    (reorderLoop fuel d rb i nr).2.1.length = d.length ∧
    (reorderLoop fuel d rb i nr).2.2 ≤ nr ∧
    min i nr ≤ (reorderLoop fuel d rb i nr).2.2 ∧
    (∀ k, k < i →
      lget (reorderLoop fuel d rb i nr).1 k dfltP = lget d k dfltP ∧
      lget (reorderLoop fuel d rb i nr).2.1 k (-1) = lget rb k (-1)) ∧
    (∀ k, i ≤ k → k < (reorderLoop fuel d rb i nr).2.2 → ∃ j : ℕ,
      i ≤ j ∧ j < nr ∧
      lget (reorderLoop fuel d rb i nr).2.1 k (-1) = (j : ℤ) ∧
      lget (reorderLoop fuel d rb i nr).1 k dfltP = lget d j dfltP) ∧
    (∀ j, i ≤ j → j < nr → liveFlag (lget d j dfltP).flag → ∃ k,
      i ≤ k ∧ k < (reorderLoop fuel d rb i nr).2.2 ∧
      lget (reorderLoop fuel d rb i nr).2.1 k (-1) = (j : ℤ) ∧
      lget (reorderLoop fuel d rb i nr).1 k dfltP = lget d j dfltP) := by
  induction fuel with
  | zero =>
    intro d rb i nr hfuel hnr hrb
    refine ⟨rfl, hrb, le_refl _, ?_, fun k _ => ⟨rfl, rfl⟩, ?_, ?_⟩
    · exact (by omega : min i nr ≤ nr)
    · intro k hik hk
      have hk' : k < nr := hk
      exact absurd hk' (by omega)
    · intro j hij hj _
      have hj' : j < nr := hj
      exact absurd hj' (by omega)
  | succ fuel ih =>
    intro d rb i nr hfuel hnr hrb
    show _ ∧ _ ∧ _ ∧ _ ∧ _ ∧ _ ∧ _
    simp only [reorderLoop]
    by_cases hin : i < nr
    · rw [if_pos hin]
      by_cases hlive : liveFlag (lget d i dfltP).flag
      · rw [if_pos hlive]
        have hrb' : (lset rb i (i : ℤ)).length = d.length := by
          rw [length_lset]; exact hrb
        obtain ⟨L1, L2, L3, L4, L5, L6, L7⟩ :=
          ih d (lset rb i (i : ℤ)) (i + 1) nr (by omega) hnr hrb'
        have hilen : i < rb.length := by omega
        refine ⟨L1, L2, L3, by omega, ?_, ?_, ?_⟩
        · intro k hk
          obtain ⟨e1, e2⟩ := L5 k (by omega)
          exact ⟨e1, by rw [e2, lget_lset_ne _ _ _ _ _ (by omega)]⟩
        · intro k hik hk
          rcases Nat.eq_or_lt_of_le hik with heq | hlt
          · obtain ⟨e1, e2⟩ := L5 k (by omega)
            refine ⟨i, le_refl _, hin, ?_, ?_⟩
            · rw [← heq] at e2 ⊢
              rw [e2, lget_lset_self _ _ _ _ hilen]
            · rw [← heq] at e1 ⊢
              rw [e1]
          · obtain ⟨j, hj1, hj2, hj3, hj4⟩ := L6 k hlt hk
            exact ⟨j, by omega, hj2, hj3, hj4⟩
        · intro j hij hj hjlive
          rcases Nat.eq_or_lt_of_le hij with heq | hlt
          · obtain ⟨e1, e2⟩ := L5 i (by omega)
            refine ⟨i, le_refl _, by omega, ?_, ?_⟩
            · rw [← heq, e2, lget_lset_self _ _ _ _ hilen]
            · rw [← heq, e1]
          · obtain ⟨k, hk1, hk2, hk3, hk4⟩ := L7 j hlt hj hjlive
            exact ⟨k, by omega, hk2, hk3, hk4⟩
      · rw [if_neg hlive]
        have hige : i ≤ nr - 1 := by omega
        have hlen2 : (lset (lset d i (lget d (nr - 1) dfltP)) (nr - 1)
            (clearDel (lget d (nr - 1) dfltP))).length = d.length := by
          rw [length_lset, length_lset]
        have hrb' : (lset rb i ((nr - 1 : ℕ) : ℤ)).length
            = (lset (lset d i (lget d (nr - 1) dfltP)) (nr - 1)
                (clearDel (lget d (nr - 1) dfltP))).length := by
          rw [length_lset, hlen2]; exact hrb
        obtain ⟨L1, L2, L3, L4, L5, L6, L7⟩ :=
          ih (lset (lset d i (lget d (nr - 1) dfltP)) (nr - 1)
                (clearDel (lget d (nr - 1) dfltP)))
             (lset rb i ((nr - 1 : ℕ) : ℤ)) (i + 1) (nr - 1)
             (by omega) (by rw [hlen2]; omega) hrb'
        rw [hlen2] at L1 L2
        have hilen : i < rb.length := by omega
        have hd'_at : ∀ k, k < nr - 1 → k ≠ i →
            lget (lset (lset d i (lget d (nr - 1) dfltP)) (nr - 1)
              (clearDel (lget d (nr - 1) dfltP))) k dfltP
              = lget d k dfltP := by
          intro k hk hknei
          rw [lget_lset_ne _ _ _ _ _ (by omega),
              lget_lset_ne _ _ _ _ _ (fun hc => hknei hc.symm)]
        have hd'_i : i < nr - 1 →
            lget (lset (lset d i (lget d (nr - 1) dfltP)) (nr - 1)
              (clearDel (lget d (nr - 1) dfltP))) i dfltP
              = lget d (nr - 1) dfltP := by
          intro hi
          rw [lget_lset_ne _ _ _ _ _ (by omega),
              lget_lset_self _ _ _ _ (by omega)]
        refine ⟨L1, L2, by omega, by omega, ?_, ?_, ?_⟩
        · intro k hk
          obtain ⟨e1, e2⟩ := L5 k (by omega)
          refine ⟨?_, ?_⟩
          · rw [e1, hd'_at k (by omega) (by omega)]
          · rw [e2, lget_lset_ne _ _ _ _ _ (by omega)]
        · intro k hik hk
          rcases Nat.eq_or_lt_of_le hik with heq | hlt
          · have hkeq : k = i := heq.symm
            subst hkeq
            have hkne : k < nr - 1 := by omega
            obtain ⟨e1, e2⟩ := L5 k (by omega)
            refine ⟨nr - 1, hige, by omega, ?_, ?_⟩
            · rw [e2, lget_lset_self _ _ _ _ hilen]
            · rw [e1, hd'_i hkne]
          · obtain ⟨j, hj1, hj2, hj3, hj4⟩ := L6 k hlt hk
            refine ⟨j, by omega, by omega, hj3, ?_⟩
            rw [hj4, hd'_at j (by omega) (by omega)]
        · intro j hij hj hjlive
          rcases Nat.eq_or_lt_of_le hij with heq | hlt
          · exact absurd hjlive (by rw [← heq]; exact hlive)
          · rcases Nat.lt_or_ge j (nr - 1) with hjlt | hjge
            · have hjl' : liveFlag (lget (lset (lset d i (lget d (nr - 1) dfltP))
                  (nr - 1) (clearDel (lget d (nr - 1) dfltP))) j dfltP).flag := by
                rw [hd'_at j hjlt (by omega)]; exact hjlive
              obtain ⟨k, hk1, hk2, hk3, hk4⟩ := L7 j hlt hjlt hjl'
              refine ⟨k, by omega, hk2, hk3, ?_⟩
              rw [hk4, hd'_at j hjlt (by omega)]
            · have hjeq : j = nr - 1 := by omega
              subst hjeq
              have hine : i < nr - 1 := by omega
              obtain ⟨e1, e2⟩ := L5 i (by omega)
              refine ⟨i, le_refl _, by omega, ?_, ?_⟩
              · rw [e2, lget_lset_self _ _ _ _ hilen]
              · rw [e1, hd'_i hine]
    · rw [if_neg hin]
      refine ⟨rfl, hrb, le_refl _, ?_, fun k _ => ⟨rfl, rfl⟩, ?_, ?_⟩
      · exact (by omega : min i nr ≤ nr)
      · intro k hik hk
        have hk' : k < nr := hk
        exact absurd hk' (by omega)
      · intro j hij hj _
        have hj' : j < nr := hj
        exact absurd hj' (by omega)

theorem buildRen_length (rb : List ℤ) :
    ∀ (count : ℕ) (ren : List ℤ) (i : ℕ),
      (buildRen rb ren i count).length = ren.length := by
  intro count
  induction count with
  | zero => intro ren i; rfl
  | succ c ih =>
    intro ren i
    simp only [buildRen]
    rw [ih, length_lset]

theorem buildRen_frame (rb : List ℤ) :
    ∀ (count : ℕ) (ren : List ℤ) (i x : ℕ),
      (∀ k, i ≤ k → k < i + count → (lget rb k (-1)).toNat ≠ x) →
      lget (buildRen rb ren i count) x (-1) = lget ren x (-1) := by
  intro count
  induction count with
  | zero => intro ren i x _; rfl
  | succ c ih =>
    intro ren i x hne
    simp only [buildRen]
    rw [ih _ _ _ (fun k hk1 hk2 => hne k (by omega) (by omega)),
        lget_lset_ne _ _ _ _ _ (hne i (le_refl _) (by omega))]

theorem buildRen_hit (rb : List ℤ) :
    ∀ (count : ℕ) (ren : List ℤ) (i x : ℕ), x < ren.length →
      (∃ k, i ≤ k ∧ k < i + count ∧ (lget rb k (-1)).toNat = x) →
      ∃ k, i ≤ k ∧ k < i + count ∧ (lget rb k (-1)).toNat = x ∧
        lget (buildRen rb ren i count) x (-1) = (k : ℤ) := by
  intro count
  induction count with
  | zero =>
    intro ren i x _ hex
    obtain ⟨k, h1, h2, _⟩ := hex
    omega
  | succ c ih =>
    intro ren i x hx hex
    by_cases hlater : ∃ k, i + 1 ≤ k ∧ k < i + 1 + c ∧ (lget rb k (-1)).toNat = x
    · obtain ⟨k, h1, h2, h3, h4⟩ :=
        ih (lset ren (lget rb i (-1)).toNat (i : ℤ)) (i + 1) x
          (by rw [length_lset]; exact hx) hlater
      exact ⟨k, by omega, by omega, h3, by simpa [buildRen] using h4⟩
    · obtain ⟨k, h1, h2, h3⟩ := hex
      have hki : k = i := by
        by_contra hne
        exact hlater ⟨k, by omega, by omega, h3⟩
      subst hki
      refine ⟨k, le_refl _, by omega, h3, ?_⟩
      simp only [buildRen]
      rw [buildRen_frame rb c _ (k + 1) x
            (fun m hm1 hm2 hcm => hlater ⟨m, hm1, by omega, hcm⟩),
          h3, lget_lset_self _ _ _ _ hx]

/-- `C2`: topology consistency across compaction.  If, before a
compaction, every index stored in every live ring references an in-range
live particle record, then after `ConnectedParticleSystem::compress`
(which renumbers each segment via the produced table) every index stored
in every live ring is nonnegative, in range for the shrunken store, and
references a live particle record. -/
theorem c2_ring_indices_live_after_compress {α : Type} [Zero α] (s : VFS α)
    (hpre : ∀ r ∈ s.segments, liveFlag r.flag → ∀ j ∈ r.indices,
      0 ≤ j ∧ j.toNat < s.data.length ∧
        liveFlag (lget s.data j.toNat dfltP).flag) :
    ∀ r' ∈ (compressC s).segments, liveFlag r'.flag → ∀ j' ∈ r'.indices,
      0 ≤ j' ∧ j'.toNat < (compressC s).data.length ∧
        liveFlag (lget (compressC s).data j'.toNat dfltP).flag := by
  intro r' hr' hlive' j' hj'
  obtain ⟨L1, L2, L3, L4, L5, L6, L7⟩ :=
    reorderLoop_spec s.data.length s.data
      (List.replicate s.data.length (-1)) 0 s.data.length
      (by omega) (le_refl _) (by simp)
  set out := reorderLoop s.data.length s.data
      (List.replicate s.data.length (-1)) 0 s.data.length with hout
  set ren := buildRen out.2.1 (List.replicate s.data.length (-1)) 0 out.2.2
    with hren
  have hseg : (compressC s).segments = s.segments.map (renumberRing ren) := rfl
  have hdata : (compressC s).data = out.1.take out.2.2 := rfl
  rw [hseg] at hr'
  obtain ⟨r, hr, hrr'⟩ := List.mem_map.1 hr'
  have hrflag : r'.flag = r.flag := by rw [← hrr']; rfl
  have hrlive : liveFlag r.flag := by rw [← hrflag]; exact hlive'
  have hind : r'.indices = r.indices.map (fun j => lget ren j.toNat (-1)) := by
    rw [← hrr']; rfl
  rw [hind] at hj'
  obtain ⟨j, hj, hjj'⟩ := List.mem_map.1 hj'
  obtain ⟨_, hjlt, hjlive⟩ := hpre r hr hrlive j hj
  obtain ⟨k, hk0, hklt, hkrb, hkd⟩ := L7 j.toNat (by omega) hjlt hjlive
  have hhit : ∃ k₀, 0 ≤ k₀ ∧ k₀ < 0 + out.2.2 ∧
      (lget out.2.1 k₀ (-1)).toNat = j.toNat ∧
      lget ren j.toNat (-1) = (k₀ : ℤ) := by
    apply buildRen_hit out.2.1 out.2.2 _ 0 j.toNat (by simpa using hjlt)
    exact ⟨k, by omega, by omega, by rw [hkrb]; exact Int.toNat_natCast _⟩
  obtain ⟨k₀, _, hk₀lt, hk₀rb, hk₀ren⟩ := hhit
  obtain ⟨j₂, _, hj₂lt, hj₂rb, hj₂d⟩ := L6 k₀ (by omega) (by omega)
  have hj₂eq : j₂ = j.toNat := by
    rw [hj₂rb] at hk₀rb
    simpa using hk₀rb
  have hlive₀ : liveFlag (lget out.1 k₀ dfltP).flag := by
    rw [hj₂d, hj₂eq]; exact hjlive
  have hlentake : (out.1.take out.2.2).length = out.2.2 := by
    rw [List.length_take, L1]
    omega
  refine ⟨?_, ?_, ?_⟩
  · rw [← hjj', hk₀ren]; exact Int.natCast_nonneg _
  · rw [hdata, hlentake, ← hjj', hk₀ren, Int.toNat_natCast]
    omega
  · rw [hdata, ← hjj', hk₀ren, Int.toNat_natCast,
        lget_take _ _ _ _ (by omega)]
    exact hlive₀

/-- Closed witness for `c2_ring_indices_live_after_compress`: a store
with a dead middle record and a live ring referencing slots 0 and 2. -/
theorem c2_witness :
    (∀ r ∈ (VFS.mk [dfltP, ⟨⟨0,0,0⟩, PDELETE⟩, dfltP]
        [⟨1, [0, 2], 0⟩] 0 0 : VFS ℚ).segments, liveFlag r.flag →
      ∀ j ∈ r.indices, 0 ≤ j ∧
        j.toNat < (VFS.mk [dfltP, ⟨⟨0,0,0⟩, PDELETE⟩, dfltP]
          [⟨1, [0, 2], 0⟩] 0 0 : VFS ℚ).data.length ∧
        liveFlag (lget (VFS.mk [dfltP, ⟨⟨0,0,0⟩, PDELETE⟩, dfltP]
          [⟨1, [0, 2], 0⟩] 0 0 : VFS ℚ).data j.toNat dfltP).flag) ∧
    (∀ r' ∈ (compressC (VFS.mk [dfltP, ⟨⟨0,0,0⟩, PDELETE⟩, dfltP]
        [⟨1, [0, 2], 0⟩] 0 0 : VFS ℚ)).segments, liveFlag r'.flag →
      ∀ j' ∈ r'.indices, 0 ≤ j' ∧
        j'.toNat < (compressC (VFS.mk [dfltP, ⟨⟨0,0,0⟩, PDELETE⟩, dfltP]
          [⟨1, [0, 2], 0⟩] 0 0 : VFS ℚ)).data.length ∧
        liveFlag (lget (compressC (VFS.mk [dfltP, ⟨⟨0,0,0⟩, PDELETE⟩, dfltP]
          [⟨1, [0, 2], 0⟩] 0 0 : VFS ℚ)).data j'.toNat dfltP).flag) :=
  ⟨by decide, c2_ring_indices_live_after_compress _ (by decide)⟩

/-- `C10`: `KnAdvectInGrid` sets the `PDELETE` flag only when the updated
position is out of bounds or inside an obstacle *and* its x coordinate
exceeds 5; whenever the advected position has `x ≤ 5` the flag word is
left exactly as it was, even out of bounds or inside an obstacle. -/
theorem c10_delete_only_beyond_x5 (isInBounds isObstacle : V3 ℚ → Bool)
    (integrate : V3 ℚ → V3 ℚ) (p : BasicParticleData ℚ) :
    ((knAdvectInGrid isInBounds isObstacle integrate p).flag ≠ p.flag →
      ((isInBounds (p.pos + integrate p.pos) = false ∨
          isObstacle (p.pos + integrate p.pos) = true) ∧
        5 < (p.pos + integrate p.pos).x ∧
        (knAdvectInGrid isInBounds isObstacle integrate p).flag
          = p.flag ||| PDELETE)) ∧
    ((p.pos + integrate p.pos).x ≤ 5 →
      (knAdvectInGrid isInBounds isObstacle integrate p).flag = p.flag) := by
  unfold knAdvectInGrid
  by_cases hlive : liveFlag p.flag
  · rw [if_pos hlive]
    by_cases hcond : ((!isInBounds (p.pos + integrate p.pos)
        || isObstacle (p.pos + integrate p.pos))
        && decide (5 < (p.pos + integrate p.pos).x) : Bool) = true
    · simp only [hcond, if_true]
      have hparts := Bool.and_eq_true_iff.1 hcond
      have hx : 5 < (p.pos + integrate p.pos).x := of_decide_eq_true hparts.2
      have hbo : isInBounds (p.pos + integrate p.pos) = false ∨
          isObstacle (p.pos + integrate p.pos) = true := by
        rcases Bool.or_eq_true_iff.1 hparts.1 with h | h
        · exact Or.inl (by simpa using h)
        · exact Or.inr h
      exact ⟨fun _ => ⟨hbo, hx, by trivial⟩, fun hle => absurd hx (not_lt.2 hle)⟩
    · simp only [Bool.not_eq_true] at hcond
      simp only [hcond, if_false]
      exact ⟨fun hne => absurd rfl hne, fun _ => rfl⟩
  · rw [if_neg hlive]
    exact ⟨fun hne => absurd rfl hne, fun _ => rfl⟩

/-- Closed witness for `c10_delete_only_beyond_x5`: an in-obstacle update
landing at the origin (`x = 0 ≤ 5`) leaves the flag word unchanged. -/
theorem c10_witness :
    ((dfltP : BasicParticleData ℚ).pos + (fun _ => 0) (dfltP : BasicParticleData ℚ).pos).x ≤ 5 ∧
      (knAdvectInGrid (fun _ => false) (fun _ => true) (fun _ => 0)
        (dfltP : BasicParticleData ℚ)).flag = (dfltP : BasicParticleData ℚ).flag :=
  ⟨(by norm_num : ((0 : ℚ) + 0) ≤ 5),
    (c10_delete_only_beyond_x5 (fun _ => false) (fun _ => true) (fun _ => 0)
      dfltP).2 (by norm_num : ((0 : ℚ) + 0) ≤ 5)⟩

theorem V3add_def {α : Type} [Add α] (a b : V3 α) :
    a + b = ⟨a.x + b.x, a.y + b.y, a.z + b.z⟩ := rfl

theorem V3sub_def {α : Type} [Sub α] (a b : V3 α) :
    a - b = ⟨a.x - b.x, a.y - b.y, a.z - b.z⟩ := rfl

set_option maxHeartbeats 1000000 in
theorem c6_scan1 :
    scanEdges ((3 : ℚ)/2 * (3/2)) c6Ring0 2 c6FailState [] 1 0
      = (c6S2, [(1, 2), (3, 3)]) := by
  simp only [scanEdges, c6FailState, c6Ring0, c6S2, posAt, ringIdx0, ringIdx1,
    ringIdxC, lget]
  norm_num [normSq, dotV, V3sub_def, V3add_def, hermiteSpline, crTangent,
    smulV, addP, DELETE_PART, dfltP, lset, PDELETE]

theorem intToNat_lit0 : (0 : ℤ).toNat = 0 := rfl

theorem intToNat_lit1 : (1 : ℤ).toNat = 1 := rfl

theorem intToNat_lit2 : (2 : ℤ).toNat = 2 := rfl

theorem intToNat_lit3 : (3 : ℤ).toNat = 3 := rfl

set_option maxHeartbeats 1000000 in
theorem c6_scan2 :
    scanEdges ((3 : ℚ)/2 * (3/2)) c6Ring1 4 c6Final [] 1 0
      = (c6Final, []) := by
  simp only [scanEdges, c6Final, c6Ring1, posAt, ringIdx0, ringIdx1,
    ringIdxC, lget]
  norm_num [normSq, dotV, V3sub_def, V3add_def, hermiteSpline, crTangent,
    smulV, addP, DELETE_PART, dfltP, lset, PDELETE, lget, List.getD,
    intToNat_lit0, intToNat_lit1, intToNat_lit2, intToNat_lit3]

set_option maxHeartbeats 1000000 in
theorem c6_pass1 :
    remeshPass ((3 : ℚ)/2 * (3/2)) c6FailState 0 = (c6Final, false) := by
  have hr : lget c6FailState.segments 0 dfltR = c6Ring0 := rfl
  simp only [remeshPass]
  rw [hr, show c6Ring0.indices.length = 2 from rfl, c6_scan1]
  norm_num [List.isEmpty, renumRebuild, List.lookup, lget, lset, c6S2,
    c6Ring0, c6Ring1, c6Final, List.getD, intToNat_lit0, intToNat_lit1,
    intToNat_lit2, intToNat_lit3,
    show ((3 : ℕ) == 1) = false from rfl, show ((3 : ℕ) == 3) = true from rfl,
    show ((2 : ℕ) == 1) = false from rfl, show ((2 : ℕ) == 3) = false from rfl,
    show ((0 : ℕ) == 1) = false from rfl, show ((0 : ℕ) == 3) = false from rfl,
    show ((1 : ℕ) == 1) = true from rfl]

set_option maxHeartbeats 1000000 in
theorem c6_pass2 :
    remeshPass ((3 : ℚ)/2 * (3/2)) c6Final 0 = (c6Final, true) := by
  have hr : lget c6Final.segments 0 dfltR = c6Ring1 := rfl
  simp only [remeshPass]
  rw [hr, show c6Ring1.indices.length = 4 from rfl, c6_scan2]
  simp [List.isEmpty]

/-- `C6` counterexample: `remesh` iterates over *all* segments with no
`isSegActive` check, so a delete-marked ring with long edges is scanned
and modified: on `c6FailState` (one dead two-point ring with edges of
length 2, threshold 3/2) `remesh` appends two midpoint particles and
rewrites the dead ring's index list, refuting "only live rings are
scanned and modified (dead rings are left untouched)". -/
theorem c6_run : remesh ((3 : ℚ)/2) 2 c6FailState = some c6Final := by
  show remeshFrom ((3 : ℚ)/2 * (3/2)) 2 c6FailState.segments.length 0
      c6FailState = some c6Final
  rw [show c6FailState.segments.length = 1 from rfl]
  simp [remeshFrom, remeshRing, c6_pass1, c6_pass2]

theorem c6_dead_ring_remeshed :
    remesh ((3 : ℚ)/2) 2 c6FailState = some c6Final ∧
      ¬ liveFlag (lget c6FailState.segments 0 dfltR).flag ∧
      c6Final.data.length = c6FailState.data.length + 2 ∧
      (lget c6Final.segments 0 dfltR).indices
        ≠ (lget c6FailState.segments 0 dfltR).indices :=
  ⟨c6_run, by decide, by decide, by decide⟩


theorem lget_append_left {α : Type} (l₁ l₂ : List α) (k : ℕ) (d : α)
    (h : k < l₁.length) : lget (l₁ ++ l₂) k d = lget l₁ k d := by
  induction l₁ generalizing k with
  | nil => simp at h
  | cons b t ih =>
    cases k with
    | zero => simp [lget]
    | succ n =>
      simp only [lget, List.cons_append, List.getD] at *
      exact ih n (by simpa using h)

theorem lget_mem {α : Type} (l : List α) (k : ℕ) (d : α) (h : k < l.length) :
    lget l k d ∈ l := by
  induction l generalizing k with
  | nil => simp at h
  | cons b t ih =>
    cases k with
    | zero => simp [lget]
    | succ n =>
      simp only [lget, List.getD] at *
      exact List.mem_cons_of_mem _ (ih n (by simpa using h))

theorem take_succ_lget {α : Type} (l : List α) (c : ℕ) (d : α)
    (h : c < l.length) : l.take (c + 1) = l.take c ++ [lget l c d] := by
  induction l generalizing c with
  | nil => simp at h
  | cons b t ih =>
    cases c with
    | zero => simp [lget]
    | succ n =>
      simp only [List.take, lget, List.getD] at *
      rw [ih n (by simpa using h)]
      rfl

theorem mem_of_lookup_eq_some {k : ℕ} {v : ℤ} :
    ∀ {ins : List (ℕ × ℤ)}, List.lookup k ins = some v → (k, v) ∈ ins := by
  intro ins
  induction ins with
  | nil => intro h; simp [List.lookup] at h
  | cons e tl ih =>
    intro h
    simp only [List.lookup] at h
    by_cases hk : (k == e.1) = true
    · simp only [hk] at h
      have hk' : k = e.1 := by simpa using hk
      have hv' : v = e.2 := by simpa using h.symm
      rw [hk', hv']
      exact List.mem_cons_self _ _
    · simp only [Bool.not_eq_true] at hk
      simp only [hk] at h
      exact List.mem_cons_of_mem _ (ih h)

theorem mem_lset {α : Type} (l : List α) (n : ℕ) (b a : α)
    (h : a ∈ lset l n b) : a = b ∨ a ∈ l := by
  induction l generalizing n with
  | nil => simp [lset] at h
  | cons c t ih =>
    cases n with
    | zero =>
      rcases List.mem_cons.1 h with h1 | h1
      · exact Or.inl h1
      · exact Or.inr (List.mem_cons_of_mem _ h1)
    | succ m =>
      rcases List.mem_cons.1 h with h1 | h1
      · exact Or.inr (h1 ▸ List.mem_cons_self _ _)
      · rcases ih m h1 with h2 | h2
        · exact Or.inl h2
        · exact Or.inr (List.mem_cons_of_mem _ h2)

theorem length_renumRebuild (ins : List (ℕ × ℤ)) (old : List ℤ) :
    ∀ (j cnt : ℕ) (acc : List ℤ),
      (renumRebuild ins old j cnt acc).length = j + acc.length := by
  intro j
  induction j with
  | zero => intro cnt acc; simp [renumRebuild]
  | succ n ih =>
    intro cnt acc
    simp only [renumRebuild]
    cases List.lookup n ins with
    | none => rw [ih]; simp; omega
    | some v => rw [ih]; simp; omega

theorem mem_renumRebuild (ins : List (ℕ × ℤ)) (old : List ℤ)
    (hne : old ≠ []) :
    ∀ (j cnt : ℕ) (acc : List ℤ), cnt ≤ old.length →
      ∀ x ∈ renumRebuild ins old j cnt acc,
        x ∈ ins.map Prod.snd ∨ x ∈ old ∨ x ∈ acc := by
  intro j
  induction j with
  | zero =>
    intro cnt acc _ x hx
    exact Or.inr (Or.inr hx)
  | succ n ih =>
    intro cnt acc hcnt x hx
    simp only [renumRebuild] at hx
    cases hv : List.lookup n ins with
    | some v =>
      rw [hv] at hx
      rcases ih cnt (v :: acc) hcnt x hx with h | h | h
      · exact Or.inl h
      · exact Or.inr (Or.inl h)
      · rcases List.mem_cons.1 h with h1 | h1
        · refine Or.inl ?_
          rw [h1]
          exact List.mem_map_of_mem Prod.snd (mem_of_lookup_eq_some hv)
        · exact Or.inr (Or.inr h1)
    | none =>
      rw [hv] at hx
      rcases ih (cnt - 1) (lget old (cnt - 1) (-1) :: acc) (by omega) x hx
        with h | h | h
      · exact Or.inl h
      · exact Or.inr (Or.inl h)
      · rcases List.mem_cons.1 h with h1 | h1
        · refine Or.inr (Or.inl ?_)
          rw [h1]
          apply lget_mem
          rcases Nat.eq_zero_or_pos cnt with hc | hc
          · subst hc
            simpa using List.length_pos.2 hne
          · omega
        · exact Or.inr (Or.inr h1)

theorem nonkeysBelow_succ (ins : List (ℕ × ℤ)) (j : ℕ) :
    nonkeysBelow ins (j + 1) =
      nonkeysBelow ins j + (if (List.lookup j ins).isNone then 1 else 0) := by
  unfold nonkeysBelow
  rw [List.range_succ, List.filter_append]
  simp only [List.length_append, List.filter_cons, List.filter_nil]
  by_cases h : (List.lookup j ins).isNone <;> simp [h]

theorem length_le_filter_ne {k : ℕ} :
    ∀ (l : List ℕ), l.Nodup →
      l.length ≤ (l.filter (fun p => !(p == k))).length + 1 := by
  intro l
  induction l with
  | nil => simp
  | cons a t ih =>
    intro hnd
    rcases List.nodup_cons.1 hnd with ⟨hna, hnt⟩
    by_cases hak : a = k
    · subst hak
      have ht : t.filter (fun p => !(p == a)) = t := by
        apply List.filter_eq_self.2
        intro b hb
        simp only [Bool.not_eq_true']
        rw [beq_eq_false_iff_ne]
        intro hba
        exact hna (hba ▸ hb)
      simp [ht]
    · have := ih hnt
      simp only [List.filter_cons]
      rw [if_pos (by simpa using hak)]
      simp only [List.length_cons]
      omega

theorem nonkeysBelow_ge (m : ℕ) :
    ∀ (ins : List (ℕ × ℤ)), m ≤ nonkeysBelow ins m + ins.length := by
  intro ins
  induction ins with
  | nil =>
    have : nonkeysBelow [] m = m := by
      unfold nonkeysBelow
      rw [List.filter_eq_self.2 (by intro a _; rfl)]
      exact List.length_range m
    omega
  | cons e tl ih =>
    have hsplit : nonkeysBelow tl m ≤ nonkeysBelow (e :: tl) m + 1 := by
      unfold nonkeysBelow
      have hpt : ∀ p ∈ List.range m,
          ((List.lookup p (e :: tl)).isNone : Bool)
            = ((!(p == e.1)) && (List.lookup p tl).isNone) := by
        intro p _
        simp only [List.lookup]
        by_cases hp : p == e.1
        · simp [hp]
        · simp only [Bool.not_eq_true] at hp
          simp [hp]
      rw [List.filter_congr hpt]
      have hff : (List.range m).filter
            (fun p => (!(p == e.1)) && (List.lookup p tl).isNone)
          = ((List.range m).filter
              (fun p => (List.lookup p tl).isNone)).filter
                (fun p => !(p == e.1)) := by
        rw [List.filter_filter]
      rw [hff]
      exact length_le_filter_ne _ ((List.nodup_range m).filter _)
    simp only [List.length_cons]
    omega

theorem renumRebuild_sublist (ins : List (ℕ × ℤ)) (old : List ℤ) :
    ∀ (j cnt : ℕ) (acc : List ℤ), cnt ≤ nonkeysBelow ins j →
      cnt ≤ old.length →
      List.Sublist (old.take cnt ++ acc) (renumRebuild ins old j cnt acc) := by
  intro j
  induction j with
  | zero =>
    intro cnt acc hnk _
    have h0 : nonkeysBelow ins 0 = 0 := by simp [nonkeysBelow]
    have : cnt = 0 := by omega
    subst this
    simp only [renumRebuild, List.take_zero, List.nil_append]
    exact List.Sublist.refl acc
  | succ n ih =>
    intro cnt acc hnk hcnt
    rw [nonkeysBelow_succ] at hnk
    simp only [renumRebuild]
    cases hv : List.lookup n ins with
    | some v =>
      have hnk' : cnt ≤ nonkeysBelow ins n := by
        simp only [hv, Option.isNone_some, Bool.false_eq_true, if_false] at hnk
        omega
      have step := ih cnt (v :: acc) hnk' hcnt
      refine List.Sublist.trans ?_ step
      exact List.Sublist.append_left (List.sublist_cons_self _ _) _
    | none =>
      have hnk' : cnt ≤ nonkeysBelow ins n + 1 := by simpa [hv] using hnk
      rcases Nat.eq_zero_or_pos cnt with hc | hc
      · subst hc
        have step := ih 0 (lget old 0 (-1) :: acc) (by omega) (by omega)
        simp only [List.take_zero, List.nil_append] at step ⊢
        exact List.Sublist.trans (List.sublist_cons_self _ _) step
      · have hc1 : cnt - 1 < old.length := by omega
        have step := ih (cnt - 1) (lget old (cnt - 1) (-1) :: acc)
          (by omega) (by omega)
        have htake : old.take cnt
            = old.take (cnt - 1) ++ [lget old (cnt - 1) (-1)] := by
          have := take_succ_lget old (cnt - 1) (-1) hc1
          rwa [Nat.sub_add_cancel hc] at this
        rw [htake, List.append_assoc, List.singleton_append]
        exact step

/-- Behaviour of the remesh edge scan: it only appends midpoint records
to the store, leaves the segment list untouched, extends the insertion
map, returns the state unchanged exactly when it inserts nothing — in
which case every scanned edge was short — and every inserted index
points at one of the appended records. -/
theorem scanEdges_facts (m2 : ℚ) (r : VortexRing ℚ) :
    ∀ (c : ℕ) (s : VFS ℚ) (ins : List (ℕ × ℤ)) (offset j : ℕ),
      ∃ ms δ,
        (scanEdges m2 r c s ins offset j).1.data = s.data ++ ms ∧
        (scanEdges m2 r c s ins offset j).1.segments = s.segments ∧
        (scanEdges m2 r c s ins offset j).2 = ins ++ δ ∧
        (δ = [] → (scanEdges m2 r c s ins offset j).1 = s ∧
          ∀ t, t < c → ¬ edgeLong m2 s.data r (j + t)) ∧
        (∀ kv ∈ δ, (s.data.length : ℤ) ≤ kv.2 ∧
          kv.2 < ((scanEdges m2 r c s ins offset j).1.data.length : ℤ)) := by
  intro c
  induction c with
  | zero =>
    intro s ins offset j
    refine ⟨[], [], by simp [scanEdges], rfl, by simp [scanEdges], ?_, by simp⟩
    exact fun _ => ⟨rfl, fun t ht => absurd ht (by omega)⟩
  | succ c ih =>
    intro s ins offset j
    simp only [scanEdges]
    by_cases hcond : m2 < normSq (posAt s.data (ringIdx1 r j)
        - posAt s.data (ringIdx0 r j))
    · rw [if_pos hcond]
      obtain ⟨ms₁, δ₁, h1, h2, h3, _, h5⟩ :=
        ih (addP s ⟨hermiteSpline (posAt s.data (ringIdx0 r j))
              (posAt s.data (ringIdx1 r j))
              (crTangent (posAt s.data (ringIdxC r ((j : ℤ) - 1)))
                (posAt s.data (ringIdx0 r j)) (posAt s.data (ringIdx1 r j)))
              (crTangent (posAt s.data (ringIdx0 r j))
                (posAt s.data (ringIdx1 r j))
                (posAt s.data (ringIdxC r ((j : ℤ) + 2)))) (1/2), 0⟩)
          (ins ++ [(j + offset, (s.data.length : ℤ))]) (offset + 1) (j + 1)
      refine ⟨(⟨hermiteSpline (posAt s.data (ringIdx0 r j))
          (posAt s.data (ringIdx1 r j))
          (crTangent (posAt s.data (ringIdxC r ((j : ℤ) - 1)))
            (posAt s.data (ringIdx0 r j)) (posAt s.data (ringIdx1 r j)))
          (crTangent (posAt s.data (ringIdx0 r j))
            (posAt s.data (ringIdx1 r j))
            (posAt s.data (ringIdxC r ((j : ℤ) + 2)))) (1/2), 0⟩ :
          BasicParticleData ℚ) :: ms₁,
        (j + offset, (s.data.length : ℤ)) :: δ₁, ?_, h2, ?_, ?_, ?_⟩
      · rw [h1]
        simp [addP]
      · rw [h3, List.append_assoc, List.singleton_append]
      · intro hd
        exact absurd hd (by simp)
      · intro kv hkv
        have hlen := congrArg List.length h1
        rw [List.length_append] at hlen
        rcases List.mem_cons.1 hkv with h | h
        · subst h
          refine ⟨le_refl _, ?_⟩
          show (s.data.length : ℤ) < _
          rw [hlen]
          have : (addP s (⟨hermiteSpline (posAt s.data (ringIdx0 r j))
              (posAt s.data (ringIdx1 r j))
              (crTangent (posAt s.data (ringIdxC r ((j : ℤ) - 1)))
                (posAt s.data (ringIdx0 r j)) (posAt s.data (ringIdx1 r j)))
              (crTangent (posAt s.data (ringIdx0 r j))
                (posAt s.data (ringIdx1 r j))
                (posAt s.data (ringIdxC r ((j : ℤ) + 2)))) (1/2), 0⟩ :
              BasicParticleData ℚ)).data.length = s.data.length + 1 := by
            simp [addP]
          rw [this]
          push_cast
          omega
        · obtain ⟨ha, hb⟩ := h5 kv h
          refine ⟨?_, hb⟩
          have h2' : (addP s (⟨hermiteSpline (posAt s.data (ringIdx0 r j))
              (posAt s.data (ringIdx1 r j))
              (crTangent (posAt s.data (ringIdxC r ((j : ℤ) - 1)))
                (posAt s.data (ringIdx0 r j)) (posAt s.data (ringIdx1 r j)))
              (crTangent (posAt s.data (ringIdx0 r j))
                (posAt s.data (ringIdx1 r j))
                (posAt s.data (ringIdxC r ((j : ℤ) + 2)))) (1/2), 0⟩ :
              BasicParticleData ℚ)).data.length = s.data.length + 1 := by
            simp [addP]
          rw [h2'] at ha
          push_cast at ha
          omega
    · rw [if_neg hcond]
      obtain ⟨ms₁, δ₁, h1, h2, h3, h4, h5⟩ := ih s ins offset (j + 1)
      refine ⟨ms₁, δ₁, h1, h2, h3, ?_, h5⟩
      intro hd
      obtain ⟨he, hshort⟩ := h4 hd
      refine ⟨he, ?_⟩
      intro t ht
      cases t with
      | zero => simpa [edgeLong] using hcond
      | succ t' =>
        have := hshort t' (by omega)
        have heq : j + 1 + t' = j + (t' + 1) := by omega
        rwa [heq] at this

/-- An edge-length check only reads store slots referenced by the ring,
so it is unaffected by appending records. -/
theorem edgeLong_append (m2 : ℚ) (d ext : List (BasicParticleData ℚ))
    (r : VortexRing ℚ) (j : ℕ) (hj : j < r.indices.length)
    (hin : ∀ x ∈ r.indices, 0 ≤ x ∧ x.toNat < d.length) :
    (edgeLong m2 (d ++ ext) r j ↔ edgeLong m2 d r j) := by
  have hlen : 0 < r.indices.length := by omega
  have hp0 : posAt (d ++ ext) (ringIdx0 r j) = posAt d (ringIdx0 r j) := by
    unfold posAt ringIdx0
    have hmem : lget r.indices j (-1) ∈ r.indices := lget_mem _ _ _ hj
    exact congrArg BasicParticleData.pos
      (lget_append_left _ _ _ _ (hin _ hmem).2)
  have hp1 : posAt (d ++ ext) (ringIdx1 r j) = posAt d (ringIdx1 r j) := by
    unfold posAt ringIdx1
    have hmem : lget r.indices ((j + 1) % r.indices.length) (-1) ∈ r.indices :=
      lget_mem _ _ _ (Nat.mod_lt _ hlen)
    exact congrArg BasicParticleData.pos
      (lget_append_left _ _ _ _ (hin _ hmem).2)
  unfold edgeLong
  rw [hp0, hp1]

/-- Behaviour of one remesh pass for ring `ri`: the invariant is
preserved, the store only grows, other segments are untouched, the ring
keeps its circulation and flag and its old index list as a subsequence,
and a pass reporting "done" changed nothing and certifies that every
edge of the ring is short. -/
theorem remeshPass_facts (m2 : ℚ) (s : VFS ℚ) (ri : ℕ) (hinv : ringInv s) :
    ringInv (remeshPass m2 s ri).1 ∧
    (∃ ms, (remeshPass m2 s ri).1.data = s.data ++ ms) ∧
    (remeshPass m2 s ri).1.segments.length = s.segments.length ∧
    (∀ q, q ≠ ri → lget (remeshPass m2 s ri).1.segments q dfltR
        = lget s.segments q dfltR) ∧
    ((lget (remeshPass m2 s ri).1.segments ri dfltR).circulation
        = (lget s.segments ri dfltR).circulation ∧
      (lget (remeshPass m2 s ri).1.segments ri dfltR).flag
        = (lget s.segments ri dfltR).flag ∧
      List.Sublist (lget s.segments ri dfltR).indices
        (lget (remeshPass m2 s ri).1.segments ri dfltR).indices) ∧
    ((remeshPass m2 s ri).2 = true → (remeshPass m2 s ri).1 = s ∧
      ∀ t, t < (lget s.segments ri dfltR).indices.length →
        ¬ edgeLong m2 s.data (lget s.segments ri dfltR) t) := by
  obtain ⟨ms, δ, h1, h2, h3, h4, h5⟩ :=
    scanEdges_facts m2 (lget s.segments ri dfltR)
      (lget s.segments ri dfltR).indices.length s [] 1 0
  rw [List.nil_append] at h3
  by_cases hδ : δ = []
  · subst hδ
    obtain ⟨hid, hshort⟩ := h4 rfl
    have hdone : remeshPass m2 s ri = (s, true) := by
      unfold remeshPass
      rw [h3, hid]
      simp
    rw [hdone]
    refine ⟨hinv, ⟨[], by simp⟩, rfl, fun q _ => rfl,
      ⟨rfl, rfl, List.Sublist.refl _⟩, fun _ => ⟨rfl, ?_⟩⟩
    intro t ht
    have := hshort t ht
    simpa using this
  · have hri : ri < s.segments.length := by
      by_contra hge
      have hdf : lget s.segments ri dfltR = dfltR := lget_of_ge _ _ _ (by omega)
      rw [hdf] at h3
      have h0 : (dfltR : VortexRing ℚ).indices.length = 0 := rfl
      rw [h0] at h3
      have hsc : (scanEdges m2 (dfltR : VortexRing ℚ) 0 s [] 1 0).2 = [] := rfl
      rw [hsc] at h3
      exact hδ h3.symm
    have hne : (lget s.segments ri dfltR).indices ≠ [] := by
      intro h0
      have hl0 : (lget s.segments ri dfltR).indices.length = 0 := by
        rw [h0]; rfl
      rw [hl0] at h3
      have hsc : (scanEdges m2 (lget s.segments ri dfltR) 0 s [] 1 0).2 = [] :=
        rfl
      rw [hsc] at h3
      exact hδ h3.symm
    have hfalse : remeshPass m2 s ri =
        (VFS.mk
          (scanEdges m2 (lget s.segments ri dfltR)
            (lget s.segments ri dfltR).indices.length s [] 1 0).1.data
          (lset (scanEdges m2 (lget s.segments ri dfltR)
              (lget s.segments ri dfltR).indices.length s [] 1 0).1.segments ri
            (VortexRing.mk (lget s.segments ri dfltR).circulation
              (renumRebuild (scanEdges m2 (lget s.segments ri dfltR)
                  (lget s.segments ri dfltR).indices.length s [] 1 0).2
                (lget s.segments ri dfltR).indices
                ((lget s.segments ri dfltR).indices.length
                  + (scanEdges m2 (lget s.segments ri dfltR)
                    (lget s.segments ri dfltR).indices.length s [] 1 0).2.length)
                (lget s.segments ri dfltR).indices.length [])
              (lget s.segments ri dfltR).flag))
          (scanEdges m2 (lget s.segments ri dfltR)
            (lget s.segments ri dfltR).indices.length s [] 1 0).1.deletes
          (scanEdges m2 (lget s.segments ri dfltR)
            (lget s.segments ri dfltR).indices.length s [] 1 0).1.deleteChunk,
          false) := by
      unfold remeshPass
      rw [if_neg]
      rw [h3]
      simp [hδ]
    have hsub : List.Sublist (lget s.segments ri dfltR).indices
        (renumRebuild (scanEdges m2 (lget s.segments ri dfltR)
            (lget s.segments ri dfltR).indices.length s [] 1 0).2
          (lget s.segments ri dfltR).indices
          ((lget s.segments ri dfltR).indices.length
            + (scanEdges m2 (lget s.segments ri dfltR)
              (lget s.segments ri dfltR).indices.length s [] 1 0).2.length)
          (lget s.segments ri dfltR).indices.length []) := by
      have hge := nonkeysBelow_ge
        ((lget s.segments ri dfltR).indices.length
          + (scanEdges m2 (lget s.segments ri dfltR)
            (lget s.segments ri dfltR).indices.length s [] 1 0).2.length)
        (scanEdges m2 (lget s.segments ri dfltR)
          (lget s.segments ri dfltR).indices.length s [] 1 0).2
      have hs := renumRebuild_sublist
        (scanEdges m2 (lget s.segments ri dfltR)
          (lget s.segments ri dfltR).indices.length s [] 1 0).2
        (lget s.segments ri dfltR).indices
        ((lget s.segments ri dfltR).indices.length
          + (scanEdges m2 (lget s.segments ri dfltR)
            (lget s.segments ri dfltR).indices.length s [] 1 0).2.length)
        (lget s.segments ri dfltR).indices.length []
        (by omega) (le_refl _)
      rwa [List.take_length, List.append_nil] at hs
    have hgrow := congrArg List.length h1
    rw [List.length_append] at hgrow
    rw [hfalse]
    refine ⟨?_, ⟨ms, h1⟩, ?_, ?_, ?_, ?_⟩
    · intro rr hrr x hx
      simp only [] at hrr
      rw [h2] at hrr
      rcases mem_lset _ _ _ _ hrr with hcase | hcase
      · subst hcase
        simp only [] at hx
        rw [h3] at hx
        rcases mem_renumRebuild _ _ hne _ _ _ (le_refl _) x hx
          with hc | hc | hc
        · obtain ⟨kv, hkv, hkveq⟩ := List.mem_map.1 hc
          obtain ⟨hlo, hhi⟩ := h5 kv hkv
          have hnn : (0 : ℤ) ≤ (s.data.length : ℤ) := Int.natCast_nonneg _
          constructor
          · rw [← hkveq]
            omega
          · rw [← hkveq]
            simp only []
            rw [hgrow] at hhi
            omega
        · have hmem : lget s.segments ri dfltR ∈ s.segments :=
            lget_mem _ _ _ hri
          obtain ⟨hx0, hxlt⟩ := hinv _ hmem x hc
          exact ⟨hx0, by simp only []; omega⟩
        · simp at hc
      · obtain ⟨hx0, hxlt⟩ := hinv _ hcase x hx
        exact ⟨hx0, by simp only []; omega⟩
    · simp only [length_lset]
      rw [h2]
    · intro q hq
      simp only []
      rw [h2]
      exact lget_lset_ne _ _ _ _ _ (fun h => hq h.symm)
    · simp only []
      rw [h2]
      rw [lget_lset_self _ _ _ _ hri]
      rw [h3] at hsub ⊢
      exact ⟨rfl, rfl, hsub⟩
    · intro hcontra
      simp at hcontra

/-- Behaviour of the per-ring `for(;;)` loop: on successful termination
the invariant holds, the store only grew, other segments are untouched,
ring `ri` keeps circulation/flag and its old indices as a subsequence,
and every edge of the final ring `ri` is short in the final store. -/
theorem remeshRing_facts (m2 : ℚ) :
    ∀ (fuel : ℕ) (s : VFS ℚ) (ri : ℕ) (s' : VFS ℚ), ringInv s →
      remeshRing m2 fuel s ri = some s' →
      ringInv s' ∧ (∃ ms, s'.data = s.data ++ ms) ∧
      s'.segments.length = s.segments.length ∧
      (∀ q, q ≠ ri → lget s'.segments q dfltR = lget s.segments q dfltR) ∧
      ((lget s'.segments ri dfltR).circulation
          = (lget s.segments ri dfltR).circulation ∧
        (lget s'.segments ri dfltR).flag = (lget s.segments ri dfltR).flag ∧
        List.Sublist (lget s.segments ri dfltR).indices
          (lget s'.segments ri dfltR).indices) ∧
      (∀ t, t < (lget s'.segments ri dfltR).indices.length →
        ¬ edgeLong m2 s'.data (lget s'.segments ri dfltR) t) := by
  intro fuel
  induction fuel with
  | zero =>
    intro s ri s' _ heq
    simp [remeshRing] at heq
  | succ fuel ih =>
    intro s ri s' hinv heq
    obtain ⟨P1, P2, P3, P4, P5, P6⟩ := remeshPass_facts m2 s ri hinv
    simp only [remeshRing] at heq
    by_cases hdone : (remeshPass m2 s ri).2 = true
    · rw [if_pos hdone] at heq
      obtain ⟨hid, hshort⟩ := P6 hdone
      have hs' : s' = s := by
        rw [← Option.some_inj.1 heq, hid]
      subst hs'
      refine ⟨hinv, ⟨[], by simp⟩, rfl, fun q _ => rfl,
        ⟨rfl, rfl, List.Sublist.refl _⟩, hshort⟩
    · rw [if_neg hdone] at heq
      obtain ⟨R1, R2, R3, R4, R5, R6⟩ := ih (remeshPass m2 s ri).1 ri s' P1 heq
      obtain ⟨ms₁, hms₁⟩ := P2
      obtain ⟨ms₂, hms₂⟩ := R2
      refine ⟨R1, ⟨ms₁ ++ ms₂, by rw [hms₂, hms₁, List.append_assoc]⟩,
        by rw [R3, P3], ?_, ?_, R6⟩
      · intro q hq
        rw [R4 q hq, P4 q hq]
      · obtain ⟨pc, pf, ps⟩ := P5
        obtain ⟨rc, rf, rs⟩ := R5
        exact ⟨by rw [rc, pc], by rw [rf, pf], List.Sublist.trans ps rs⟩

/-- Behaviour of the outer segment loop from ring `ri` over `c` rings. -/
theorem remeshFrom_facts (m2 : ℚ) (fuel : ℕ) :
    ∀ (c ri : ℕ) (s s' : VFS ℚ), ringInv s →
      remeshFrom m2 fuel c ri s = some s' →
      ringInv s' ∧ (∃ ms, s'.data = s.data ++ ms) ∧
      s'.segments.length = s.segments.length ∧
      (∀ q, q < ri → lget s'.segments q dfltR = lget s.segments q dfltR) ∧
      (∀ q, ri ≤ q → q < ri + c →
        (lget s'.segments q dfltR).circulation
          = (lget s.segments q dfltR).circulation ∧
        (lget s'.segments q dfltR).flag = (lget s.segments q dfltR).flag ∧
        List.Sublist (lget s.segments q dfltR).indices
          (lget s'.segments q dfltR).indices ∧
        ∀ t, t < (lget s'.segments q dfltR).indices.length →
          ¬ edgeLong m2 s'.data (lget s'.segments q dfltR) t) := by
  intro c
  induction c with
  | zero =>
    intro ri s s' hinv heq
    have hs' : s' = s := (Option.some_inj.1 (by simpa [remeshFrom] using heq)
      : s = s').symm
    subst hs'
    refine ⟨hinv, ⟨[], by simp⟩, rfl, fun q _ => rfl, ?_⟩
    intro q h1 h2
    omega
  | succ c ih =>
    intro ri s s' hinv heq
    simp only [remeshFrom] at heq
    cases hring : remeshRing m2 fuel s ri with
    | none => rw [hring] at heq; simp at heq
    | some s₁ =>
      rw [hring] at heq
      simp only [] at heq
      obtain ⟨R1, R2, R3, R4, R5, R6⟩ := remeshRing_facts m2 fuel s ri s₁
        hinv hring
      obtain ⟨F1, F2, F3, F4, F5⟩ := ih (ri + 1) s₁ s' R1 heq
      obtain ⟨ms₁, hms₁⟩ := R2
      obtain ⟨ms₂, hms₂⟩ := F2
      refine ⟨F1, ⟨ms₁ ++ ms₂, by rw [hms₂, hms₁, List.append_assoc]⟩,
        by rw [F3, R3], ?_, ?_⟩
      · intro q hq
        rw [F4 q (by omega), R4 q (by omega)]
      · intro q hq1 hq2
        rcases Nat.eq_or_lt_of_le hq1 with heqq | hlt
        · have hq' : lget s'.segments q dfltR = lget s₁.segments q dfltR :=
            F4 q (by omega)
          subst heqq
          obtain ⟨rc, rf, rs⟩ := R5
          refine ⟨by rw [hq', rc], by rw [hq', rf],
            by rw [hq']; exact rs, ?_⟩
          intro t ht
          rw [hq'] at ht ⊢
          rcases Nat.lt_or_ge ri s₁.segments.length with hrin | hrout
          · have hmem : lget s₁.segments ri dfltR ∈ s₁.segments :=
              lget_mem _ _ _ hrin
            have hin : ∀ x ∈ (lget s₁.segments ri dfltR).indices,
                0 ≤ x ∧ x.toNat < s₁.data.length := R1 _ hmem
            rw [hms₂]
            rw [edgeLong_append m2 s₁.data ms₂ _ t ht hin]
            exact R6 t ht
          · have hdf : lget s₁.segments ri dfltR = dfltR :=
              lget_of_ge _ _ _ hrout
            rw [hdf] at ht
            simp [dfltR] at ht
        · obtain ⟨fc, ff, fs, fshort⟩ := F5 q (by omega) (by omega)
          have hq1' : lget s₁.segments q dfltR = lget s.segments q dfltR :=
            R4 q (by omega)
          exact ⟨by rw [fc, hq1'], by rw [ff, hq1'],
            by rw [← hq1']; exact fs, fshort⟩

/-- `C6` as amended: on a terminating `remesh(maxLen)` run over a store
whose ring indices are in range, (i) existing particle records are
unmodified and the store only grows, (ii) the segment count is
unchanged, (iii) *every* ring — live or dead — keeps its circulation and
flag, keeps its original cyclic point order (its old index list is a
subsequence of the new one), and all its indices reference in-range
store slots, and (iv) afterwards no edge of any ring exceeds `maxLen`
(squared comparison, exact arithmetic). -/
theorem c6_amended (maxLen : ℚ) (fuel : ℕ) (s s' : VFS ℚ)
    (hrun : remesh maxLen fuel s = some s') (hinv : ringInv s) :
    (s.data.length ≤ s'.data.length ∧
      ∀ k, k < s.data.length → lget s'.data k dfltP = lget s.data k dfltP) ∧
    s'.segments.length = s.segments.length ∧
    (∀ q, q < s.segments.length →
      (lget s'.segments q dfltR).circulation
        = (lget s.segments q dfltR).circulation ∧
      (lget s'.segments q dfltR).flag = (lget s.segments q dfltR).flag ∧
      List.Sublist (lget s.segments q dfltR).indices
        (lget s'.segments q dfltR).indices ∧
      (∀ x ∈ (lget s'.segments q dfltR).indices,
        0 ≤ x ∧ x.toNat < s'.data.length)) ∧
    (∀ q t, t < (lget s'.segments q dfltR).indices.length →
      ¬ edgeLong (maxLen * maxLen) s'.data (lget s'.segments q dfltR) t) := by
  unfold remesh at hrun
  obtain ⟨F1, ⟨ms, hms⟩, F3, _, F5⟩ :=
    remeshFrom_facts (maxLen * maxLen) fuel s.segments.length 0 s s' hinv hrun
  refine ⟨⟨?_, ?_⟩, F3, ?_, ?_⟩
  · rw [hms]
    simp
  · intro k hk
    rw [hms]
    exact lget_append_left _ _ _ _ hk
  · intro q hq
    obtain ⟨fc, ff, fs, _⟩ := F5 q (by omega) (by omega)
    refine ⟨fc, ff, fs, ?_⟩
    intro x hx
    have hmem : lget s'.segments q dfltR ∈ s'.segments :=
      lget_mem _ _ _ (by rw [F3]; omega)
    exact F1 _ hmem x hx
  · intro q t ht
    rcases Nat.lt_or_ge q s.segments.length with hq | hq
    · exact (F5 q (by omega) (by omega)).2.2.2 t ht
    · have hdf : lget s'.segments q dfltR = dfltR :=
        lget_of_ge _ _ _ (by rw [F3]; omega)
      rw [hdf] at ht
      simp [dfltR] at ht

/-- Closed witness for `c6_amended` at the dead-ring system: the run
terminates and the hypotheses hold concretely. -/
theorem c6_amended_witness :
    (remesh ((3 : ℚ)/2) 2 c6FailState = some c6Final ∧ ringInv c6FailState) ∧
      ((c6FailState.data.length ≤ c6Final.data.length ∧
        ∀ k, k < c6FailState.data.length →
          lget c6Final.data k dfltP = lget c6FailState.data k dfltP) ∧
      c6Final.segments.length = c6FailState.segments.length ∧
      (∀ q, q < c6FailState.segments.length →
        (lget c6Final.segments q dfltR).circulation
          = (lget c6FailState.segments q dfltR).circulation ∧
        (lget c6Final.segments q dfltR).flag
          = (lget c6FailState.segments q dfltR).flag ∧
        List.Sublist (lget c6FailState.segments q dfltR).indices
          (lget c6Final.segments q dfltR).indices ∧
        (∀ x ∈ (lget c6Final.segments q dfltR).indices,
          0 ≤ x ∧ x.toNat < c6Final.data.length)) ∧
      (∀ q t, t < (lget c6Final.segments q dfltR).indices.length →
        ¬ edgeLong ((3 : ℚ)/2 * ((3 : ℚ)/2)) c6Final.data
          (lget c6Final.segments q dfltR) t)) :=
  ⟨⟨c6_run, by decide⟩,
    c6_amended ((3 : ℚ)/2) 2 c6FailState c6Final c6_run (by decide)⟩

theorem V3add_zero (u : V3 ℝ) : u + (⟨0, 0, 0⟩ : V3 ℝ) = u := by
  cases u
  simp [V3add_def]

theorem foldl_add_of_zero (f : ℕ → V3 ℝ) :
    ∀ (l : List ℕ) (u : V3 ℝ), (∀ j ∈ l, f j = ⟨0, 0, 0⟩) →
      l.foldl (fun acc j => acc + f j) u = u := by
  intro l
  induction l with
  | nil => intro u _; rfl
  | cons a t ih =>
    intro u hz
    simp only [List.foldl_cons]
    rw [hz a (List.mem_cons_self _ _), V3add_zero]
    exact ih u (fun j hj => hz j (List.mem_cons_of_mem _ hj))

/-- `C5`: the Biot-Savart kernel guards.  (a) An edge contributes
exactly zero whenever either endpoint's squared distance to the query
exceeds the squared cutoff or falls below `1e-6`; (b) in particular an
edge whose start point coincides with the query is skipped; (c) a query
point beyond the cutoff from every edge endpoint receives exactly zero
induced velocity; (d) rings flagged `PDELETE` contribute nothing. -/
theorem c5_kernel_guards (strength a2 cutoff2 : ℝ) (y : List (V3 ℝ))
    (xi : V3 ℝ) :
    (∀ (str : ℝ) (r : VortexRing ℝ) (j : ℕ),
      (cutoff2 < normSq (lget y (ringIdx0 r j).toNat ⟨0, 0, 0⟩ - xi) ∨
        cutoff2 < normSq (lget y (ringIdx1 r j).toNat ⟨0, 0, 0⟩ - xi) ∨
        normSq (lget y (ringIdx0 r j).toNat ⟨0, 0, 0⟩ - xi) < 1e-6 ∨
        normSq (lget y (ringIdx1 r j).toNat ⟨0, 0, 0⟩ - xi) < 1e-6) →
      biotSavartEdge str a2 cutoff2 y r j xi = ⟨0, 0, 0⟩) ∧
    (∀ (str : ℝ) (r : VortexRing ℝ) (j : ℕ),
      lget y (ringIdx0 r j).toNat ⟨0, 0, 0⟩ = xi →
      biotSavartEdge str a2 cutoff2 y r j xi = ⟨0, 0, 0⟩) ∧
    (∀ rings : List (VortexRing ℝ),
      (∀ r ∈ rings, ∀ j : ℕ,
        cutoff2 < normSq (lget y (ringIdx0 r j).toNat ⟨0, 0, 0⟩ - xi)) →
      filamentKernel strength a2 cutoff2 rings y xi = ⟨0, 0, 0⟩) ∧
    (∀ (rings : List (VortexRing ℝ)) (r : VortexRing ℝ),
      ¬ liveFlag r.flag →
      filamentKernel strength a2 cutoff2 (r :: rings) y xi
        = filamentKernel strength a2 cutoff2 rings y xi) := by
  have hedge : ∀ (str : ℝ) (r : VortexRing ℝ) (j : ℕ),
      (cutoff2 < normSq (lget y (ringIdx0 r j).toNat ⟨0, 0, 0⟩ - xi) ∨
        cutoff2 < normSq (lget y (ringIdx1 r j).toNat ⟨0, 0, 0⟩ - xi) ∨
        normSq (lget y (ringIdx0 r j).toNat ⟨0, 0, 0⟩ - xi) < 1e-6 ∨
        normSq (lget y (ringIdx1 r j).toNat ⟨0, 0, 0⟩ - xi) < 1e-6) →
      biotSavartEdge str a2 cutoff2 y r j xi = ⟨0, 0, 0⟩ := by
    intro str r j h
    unfold biotSavartEdge
    rw [if_pos h]
  refine ⟨hedge, ?_, ?_, ?_⟩
  · intro str r j h
    apply hedge
    right; right; left
    rw [h]
    have : xi - xi = (⟨0, 0, 0⟩ : V3 ℝ) := by
      cases xi
      simp [V3sub_def]
    rw [this]
    norm_num [normSq, dotV]
  · intro rings hfar
    unfold filamentKernel
    have hring : ∀ r ∈ rings,
        biotSavartRing strength a2 cutoff2 y r xi = ⟨0, 0, 0⟩ := by
      intro r hr
      unfold biotSavartRing
      exact foldl_add_of_zero _ _ _
        (fun j _ => hedge _ r j (Or.inl (hfar r hr j)))
    induction rings with
    | nil => rfl
    | cons r rs ih =>
      simp only [List.foldl_cons]
      by_cases hl : liveFlag r.flag
      · rw [if_pos hl, hring r (List.mem_cons_self _ _), V3add_zero]
        exact ih (fun r' hr' j => hfar r' (List.mem_cons_of_mem _ hr') j)
          (fun r' hr' => hring r' (List.mem_cons_of_mem _ hr'))
      · rw [if_neg hl]
        exact ih (fun r' hr' j => hfar r' (List.mem_cons_of_mem _ hr') j)
          (fun r' hr' => hring r' (List.mem_cons_of_mem _ hr'))
  · intro rings r hdead
    unfold filamentKernel
    simp only [List.foldl_cons]
    rw [if_neg hdead]

/-- Closed witness for `c5_kernel_guards`: one live single-point ring at
distance 10 from the query with cutoff² = 1 — every edge endpoint is
beyond the cutoff, so all four guard facts apply concretely. -/
theorem c5_witness :
    ((1 : ℝ) < normSq (lget [(⟨10, 0, 0⟩ : V3 ℝ)]
        (ringIdx0 (⟨1, [0], 0⟩ : VortexRing ℝ) 0).toNat ⟨0, 0, 0⟩
        - (⟨0, 0, 0⟩ : V3 ℝ)) ∧
      ¬ liveFlag (PDELETE : ℕ)) ∧
    biotSavartEdge 1 1 1 [(⟨10, 0, 0⟩ : V3 ℝ)] (⟨1, [0], 0⟩ : VortexRing ℝ)
        0 (⟨0, 0, 0⟩ : V3 ℝ) = ⟨0, 0, 0⟩ ∧
    filamentKernel 1 1 1 [(⟨1, [0], 0⟩ : VortexRing ℝ)]
        [(⟨10, 0, 0⟩ : V3 ℝ)] (⟨0, 0, 0⟩ : V3 ℝ) = ⟨0, 0, 0⟩ ∧
    filamentKernel 1 1 1 [(⟨1, [0], PDELETE⟩ : VortexRing ℝ)]
        [(⟨10, 0, 0⟩ : V3 ℝ)] (⟨0, 0, 0⟩ : V3 ℝ)
      = filamentKernel 1 1 1 [] [(⟨10, 0, 0⟩ : V3 ℝ)] (⟨0, 0, 0⟩ : V3 ℝ) := by
  have hfar : ∀ j : ℕ, (1 : ℝ) < normSq (lget [(⟨10, 0, 0⟩ : V3 ℝ)]
      (ringIdx0 (⟨1, [0], 0⟩ : VortexRing ℝ) j).toNat ⟨0, 0, 0⟩
      - (⟨0, 0, 0⟩ : V3 ℝ)) := by
    intro j
    have hv : lget [(⟨10, 0, 0⟩ : V3 ℝ)]
        (ringIdx0 (⟨1, [0], 0⟩ : VortexRing ℝ) j).toNat ⟨0, 0, 0⟩
        = ⟨10, 0, 0⟩ := by
      cases j with
      | zero => rfl
      | succ n =>
        have : ringIdx0 (⟨1, [0], 0⟩ : VortexRing ℝ) (n + 1) = -1 := by
          unfold ringIdx0
          apply lget_of_ge
          simp
        rw [this]
        rfl
    rw [hv]
    norm_num [normSq, dotV, V3sub_def]
  obtain ⟨h1, _, h3, h4⟩ := c5_kernel_guards 1 1 1 [(⟨10, 0, 0⟩ : V3 ℝ)]
    (⟨0, 0, 0⟩ : V3 ℝ)
  refine ⟨⟨hfar 0, by decide⟩, ?_, ?_, ?_⟩
  · exact h1 1 _ 0 (Or.inl (hfar 0))
  · refine h3 _ ?_
    intro r hr j
    have hr' : r = (⟨1, [0], 0⟩ : VortexRing ℝ) := by simpa using hr
    rw [hr']
    exact hfar j
  · exact h4 [] (⟨1, [0], PDELETE⟩ : VortexRing ℝ) (by decide)

theorem normSq_nonneg (v : V3 ℝ) : 0 ≤ normSq v := by
  unfold normSq dotV
  nlinarith [mul_self_nonneg v.x, mul_self_nonneg v.y, mul_self_nonneg v.z]

theorem normSq_smul (c : ℝ) (v : V3 ℝ) :
    normSq (smulV c v) = c ^ 2 * normSq v := by
  unfold normSq dotV smulV
  ring

theorem dotV_comm (a b : V3 ℝ) : dotV a b = dotV b a := by
  unfold dotV
  ring

theorem dotV_smul_left (c : ℝ) (v w : V3 ℝ) :
    dotV (smulV c v) w = c * dotV v w := by
  unfold dotV smulV
  ring

theorem crossV_dot_left (a b : V3 ℝ) : dotV (crossV a b) a = 0 := by
  unfold dotV crossV
  ring

theorem crossV_dot_right (a b : V3 ℝ) : dotV (crossV a b) b = 0 := by
  unfold dotV crossV
  ring

theorem normSq_cross (a b : V3 ℝ) :
    normSq (crossV a b) = normSq a * normSq b - (dotV a b) ^ 2 := by
  unfold normSq dotV crossV
  ring

theorem normSq_lincomb (u v : V3 ℝ) (a b : ℝ) :
    normSq (smulV a u + smulV b v)
      = a ^ 2 * normSq u + 2 * a * b * dotV u v + b ^ 2 * normSq v := by
  cases u; cases v
  simp only [normSq, dotV, smulV, V3add_def]
  ring

theorem dotV_lincomb (u v w : V3 ℝ) (a b : ℝ) :
    dotV (smulV a u + smulV b v) w = a * dotV u w + b * dotV v w := by
  cases u; cases v; cases w
  simp only [dotV, smulV, V3add_def]
  ring

theorem dotV_lincomb2 (u v : V3 ℝ) (a₁ b₁ a₂ b₂ : ℝ) :
    dotV (smulV a₁ u + smulV b₁ v) (smulV a₂ u + smulV b₂ v)
      = a₁ * a₂ * normSq u + (a₁ * b₂ + b₁ * a₂) * dotV u v
        + b₁ * b₂ * normSq v := by
  cases u; cases v
  simp only [normSq, dotV, smulV, V3add_def]
  ring

theorem normalizeV_of_normSq_one (v : V3 ℝ) (h : normSq v = 1) :
    normalizeV v = v := by
  unfold normalizeV normV
  rw [if_neg (by rw [h]; norm_num), h, Real.sqrt_one]
  cases v
  simp [smulV]

theorem normSq_normalizeV (v : V3 ℝ) (h : normSq v ≠ 0) :
    normSq (normalizeV v) = 1 := by
  unfold normalizeV normV
  rw [if_neg h, normSq_smul, one_div, inv_pow, Real.sq_sqrt (normSq_nonneg v)]
  field_simp

theorem dotV_normalizeV_zero (v w : V3 ℝ) (h : dotV v w = 0) :
    dotV (normalizeV v) w = 0 := by
  unfold normalizeV
  by_cases h0 : normSq v = 0
  · rw [if_pos h0]; exact h
  · rw [if_neg h0, dotV_smul_left, h, mul_zero]

/-- The chosen reference axis always yields a nonzero cross product,
except for the exact antiparallel normal `(0,-1,0)`. -/
theorem cross_worldup_ne (n : V3 ℝ) (hunit : normSq n = 1)
    (hnot : n ≠ ⟨0, -1, 0⟩) :
    normSq (crossV n (if normV (n - ⟨0, 1, 0⟩) < 1e-5 then ⟨1, 0, 0⟩
      else ⟨0, 1, 0⟩)) ≠ 0 := by
  by_cases hcond : normV (n - ⟨0, 1, 0⟩) < 1e-5
  · rw [if_pos hcond]
    intro h0
    have hyz : n.y = 0 ∧ n.z = 0 := by
      simp only [normSq, dotV, crossV] at h0
      constructor <;> nlinarith [sq_nonneg n.y, sq_nonneg n.z]
    have h2 : normSq (n - ⟨0, 1, 0⟩) = 2 := by
      simp only [normSq, dotV, V3sub_def] at hunit ⊢
      nlinarith [hyz.1, hyz.2]
    have hsq : normV (n - ⟨0, 1, 0⟩) = Real.sqrt 2 := by
      unfold normV
      rw [h2]
    have h1le : (1 : ℝ) ≤ Real.sqrt 2 := by
      rw [show (1 : ℝ) = Real.sqrt 1 from (Real.sqrt_one).symm]
      exact Real.sqrt_le_sqrt (by norm_num)
    rw [hsq] at hcond
    norm_num at hcond
    linarith
  · rw [if_neg hcond]
    intro h0
    have hxz : n.x = 0 ∧ n.z = 0 := by
      simp only [normSq, dotV, crossV] at h0
      constructor <;> nlinarith [sq_nonneg n.x, sq_nonneg n.z]
    have hy2 : n.y * n.y = 1 := by
      simp only [normSq, dotV] at hunit
      nlinarith [hxz.1, hxz.2]
    rcases mul_self_eq_one_iff.1 hy2 with hy | hy
    · apply hcond
      have hn : n = ⟨0, 1, 0⟩ := by
        cases n
        simp only [V3.mk.injEq]
        exact ⟨hxz.1, hy, hxz.2⟩
      rw [hn]
      have hz : normSq ((⟨0, 1, 0⟩ : V3 ℝ) - ⟨0, 1, 0⟩) = 0 := by
        norm_num [normSq, dotV, V3sub_def]
      unfold normV
      rw [hz, Real.sqrt_zero]
      norm_num
    · apply hnot
      cases n
      simp only [V3.mk.injEq]
      exact ⟨hxz.1, hy, hxz.2⟩

theorem lget_append_right {α : Type} (l₁ l₂ : List α) (i : ℕ) (d : α) :
    lget (l₁ ++ l₂) (l₁.length + i) d = lget l₂ i d := by
  induction l₁ with
  | nil => simp [lget]
  | cons b t ih =>
    simp only [List.cons_append, List.length_cons, lget, List.getD] at *
    rw [show t.length + 1 + i = (t.length + i) + 1 from by omega]
    exact ih

theorem lget_range (N i : ℕ) (d : ℕ) (h : i < N) :
    lget (List.range N) i d = i := by
  simp [lget, List.getD, List.getElem?_range h]

theorem addP_data {α : Type} (s : VFS α) (p : BasicParticleData α) :
    (addP s p).data = s.data ++ [p] := rfl

/-- Unfolding of the `addRing` particle loop: it appends the `c`
ring particles for angles `(i+t)/number * 2π` and returns the new store
indices in order. -/
theorem addRingLoop_spec (position : V3 ℝ) (radius : ℝ) (u v : V3 ℝ)
    (number : ℕ) :
    ∀ (c i : ℕ) (s : VFS ℝ) (acc : List ℤ),
      (addRingLoop position radius u v number c i s acc).1.data
        = s.data ++ (List.range c).map (fun t =>
            ⟨position + smulV radius
              (smulV (Real.cos (((i + t : ℕ) : ℝ) / (number : ℝ)
                * Real.pi * 2)) u +
                smulV (Real.sin (((i + t : ℕ) : ℝ) / (number : ℝ)
                  * Real.pi * 2)) v), 0⟩) ∧
      (addRingLoop position radius u v number c i s acc).1.segments
        = s.segments ∧
      (addRingLoop position radius u v number c i s acc).2
        = acc ++ (List.range c).map
            (fun t => ((s.data.length + t : ℕ) : ℤ)) := by
  intro c
  induction c with
  | zero =>
    intro i s acc
    exact ⟨by simp [addRingLoop], rfl, by simp [addRingLoop]⟩
  | succ c ih =>
    intro i s acc
    simp only [addRingLoop]
    obtain ⟨h1, h2, h3⟩ := ih (i + 1)
      (addP s ⟨position + smulV radius
        (smulV (Real.cos ((i : ℝ) / (number : ℝ) * Real.pi * 2)) u +
          smulV (Real.sin ((i : ℝ) / (number : ℝ) * Real.pi * 2)) v), 0⟩)
      (acc ++ [(s.data.length : ℤ)])
    refine ⟨?_, h2, ?_⟩
    · have hf : (fun t : ℕ => (⟨position + smulV radius
          (smulV (Real.cos (((i + 1 + t : ℕ) : ℝ) / (number : ℝ)
            * Real.pi * 2)) u +
            smulV (Real.sin (((i + 1 + t : ℕ) : ℝ) / (number : ℝ)
              * Real.pi * 2)) v), 0⟩ : BasicParticleData ℝ))
          = (fun t : ℕ => (⟨position + smulV radius
            (smulV (Real.cos (((i + t : ℕ) : ℝ) / (number : ℝ)
              * Real.pi * 2)) u +
              smulV (Real.sin (((i + t : ℕ) : ℝ) / (number : ℝ)
                * Real.pi * 2)) v), 0⟩ : BasicParticleData ℝ)) ∘
            Nat.succ := by
        funext t
        simp only [Function.comp_apply]
        rw [show i + 1 + t = i + Nat.succ t from by omega]
      rw [h1, addP_data, List.append_assoc, List.singleton_append,
        List.range_succ_eq_map, List.map_cons, List.map_map, ← hf]
      rfl
    · have hlen : (addP s ⟨position + smulV radius
          (smulV (Real.cos ((i : ℝ) / (number : ℝ) * Real.pi * 2)) u +
            smulV (Real.sin ((i : ℝ) / (number : ℝ) * Real.pi * 2)) v),
            0⟩).data.length = s.data.length + 1 := by
        simp [addP]
      have hg : (fun t : ℕ => ((s.data.length + 1 + t : ℕ) : ℤ))
          = (fun t : ℕ => ((s.data.length + t : ℕ) : ℤ)) ∘ Nat.succ := by
        funext t
        simp only [Function.comp_apply]
        rw [show s.data.length + 1 + t = s.data.length + Nat.succ t from
          by omega]
      rw [h3, hlen, List.append_assoc, List.singleton_append,
        List.range_succ_eq_map, List.map_cons, List.map_map, ← hg]
      rfl

/-- Closed witness for `c9_amended` at a one-segment system. -/
theorem c9_amended_witness :
    (0 : ℕ) < (c9FailState).segments.length ∧
      ((compressC c9FailState).segments.length = c9FailState.segments.length ∧
        (lget (compressC c9FailState).segments 0 dfltR).flag
            = (lget c9FailState.segments 0 dfltR).flag ∧
        (lget (compressC c9FailState).segments 0 dfltR).circulation
            = (lget c9FailState.segments 0 dfltR).circulation) :=
  ⟨by decide, c9_amended c9FailState 0 (by decide)⟩

theorem addRing_data (s : VFS ℝ) (position : V3 ℝ) (circ radius : ℝ)
    (n0 : V3 ℝ) (N : ℕ) :
    (addRing s position circ radius n0 N).data
      = s.data ++ (List.range N).map (fun t =>
          ⟨position + smulV radius
            (smulV (Real.cos (((t : ℕ) : ℝ) / (N : ℝ) * Real.pi * 2))
              (ringU n0) +
              smulV (Real.sin (((t : ℕ) : ℝ) / (N : ℝ) * Real.pi * 2))
                (ringV n0)), 0⟩) := by
  have h := (addRingLoop_spec position radius (ringU n0) (ringV n0) N
    N 0 s []).1
  simp only [Nat.zero_add] at h
  exact h

theorem addRing_segments (s : VFS ℝ) (position : V3 ℝ) (circ radius : ℝ)
    (n0 : V3 ℝ) (N : ℕ) :
    (addRing s position circ radius n0 N).segments
      = s.segments ++ [⟨circ, (List.range N).map
          (fun t => ((s.data.length + t : ℕ) : ℤ)), 0⟩] := by
  have h2 := (addRingLoop_spec position radius (ringU n0) (ringV n0) N
    N 0 s []).2.1
  have h3 := (addRingLoop_spec position radius (ringU n0) (ringV n0) N
    N 0 s []).2.2
  show (addRingLoop position radius (ringU n0) (ringV n0) N N 0 s
    []).1.segments ++ [VortexRing.mk circ (addRingLoop position radius
      (ringU n0) (ringV n0) N N 0 s []).2 0] = _
  rw [h2, h3, List.nil_append]

theorem ringU_unit (n : V3 ℝ) (hunit : normSq n = 1)
    (hnot : n ≠ ⟨0, -1, 0⟩) : normSq (ringU n) = 1 := by
  unfold ringU
  rw [normalizeV_of_normSq_one n hunit]
  exact normSq_normalizeV _ (cross_worldup_ne n hunit hnot)

theorem ringU_orth (n : V3 ℝ) (hunit : normSq n = 1) :
    dotV (ringU n) n = 0 := by
  unfold ringU
  rw [normalizeV_of_normSq_one n hunit]
  exact dotV_normalizeV_zero _ _ (crossV_dot_left n _)

theorem ringV_eq (n : V3 ℝ) (hunit : normSq n = 1)
    (hnot : n ≠ ⟨0, -1, 0⟩) : ringV n = crossV n (ringU n) := by
  unfold ringV
  rw [normalizeV_of_normSq_one n hunit]
  apply normalizeV_of_normSq_one
  rw [normSq_cross, hunit, ringU_unit n hunit hnot,
    dotV_comm n (ringU n), ringU_orth n hunit]
  norm_num

theorem ringV_unit (n : V3 ℝ) (hunit : normSq n = 1)
    (hnot : n ≠ ⟨0, -1, 0⟩) : normSq (ringV n) = 1 := by
  rw [ringV_eq n hunit hnot, normSq_cross, hunit,
    ringU_unit n hunit hnot, dotV_comm n (ringU n), ringU_orth n hunit]
  norm_num

theorem ringV_orth (n : V3 ℝ) (hunit : normSq n = 1)
    (hnot : n ≠ ⟨0, -1, 0⟩) : dotV (ringV n) n = 0 := by
  rw [ringV_eq n hunit hnot]
  exact crossV_dot_left n (ringU n)

theorem ringUV_orth (n : V3 ℝ) (hunit : normSq n = 1)
    (hnot : n ≠ ⟨0, -1, 0⟩) : dotV (ringU n) (ringV n) = 0 := by
  rw [ringV_eq n hunit hnot, dotV_comm]
  exact crossV_dot_right n (ringU n)

theorem V3_add_sub_cancel (a b : V3 ℝ) : (a + b) - a = b := by
  cases a; cases b
  simp only [V3add_def, V3sub_def, V3.mk.injEq]
  refine ⟨by ring, by ring, by ring⟩

theorem smul_lincomb (r a b : ℝ) (u v : V3 ℝ) :
    smulV r (smulV a u + smulV b v)
      = smulV (r * a) u + smulV (r * b) v := by
  cases u; cases v
  simp only [smulV, V3add_def, V3.mk.injEq]
  refine ⟨by ring, by ring, by ring⟩

/-- C4 is refuted at the antiparallel normal `(0,-1,0)`: the worldup
rerouting guards only normals within `1e-5` of `(0,1,0)`, so
`cross(normal, worldup)` is the zero vector, the in-plane basis is
degenerate, and `addRing` places its particle at the center — at
squared distance 0, not `radius^2 = 1`, from the center. -/
theorem c4_antiparallel_degenerate :
    (addRing emptyVFS ⟨0, 0, 0⟩ 1 1 ⟨0, -1, 0⟩ 1).data.length = 1 ∧
      normSq ((lget (addRing emptyVFS ⟨0, 0, 0⟩ 1 1 ⟨0, -1, 0⟩ 1).data 0
        dfltP).pos - ⟨0, 0, 0⟩) ≠ 1 * 1 := by
  have hn : normalizeV ⟨0, -1, 0⟩ = (⟨0, -1, 0⟩ : V3 ℝ) :=
    normalizeV_of_normSq_one _ (by norm_num [normSq, dotV])
  have hcond : ¬ normV ((⟨0, -1, 0⟩ : V3 ℝ) - ⟨0, 1, 0⟩) < 1e-5 := by
    have h2 : normSq ((⟨0, -1, 0⟩ : V3 ℝ) - ⟨0, 1, 0⟩) = 4 := by
      norm_num [normSq, dotV, V3sub_def]
    unfold normV
    rw [h2, show (4 : ℝ) = 2 ^ 2 by norm_num,
      Real.sqrt_sq (by norm_num : (0 : ℝ) ≤ 2)]
    norm_num
  have hz : normalizeV (⟨0, 0, 0⟩ : V3 ℝ) = ⟨0, 0, 0⟩ := by
    unfold normalizeV
    rw [if_pos (by norm_num [normSq, dotV])]
  have hU : ringU ⟨0, -1, 0⟩ = (⟨0, 0, 0⟩ : V3 ℝ) := by
    unfold ringU
    rw [hn, if_neg hcond,
      show crossV (⟨0, -1, 0⟩ : V3 ℝ) ⟨0, 1, 0⟩ = ⟨0, 0, 0⟩ by
        norm_num [crossV], hz]
  have hV : ringV ⟨0, -1, 0⟩ = (⟨0, 0, 0⟩ : V3 ℝ) := by
    unfold ringV
    rw [hn, hU,
      show crossV (⟨0, -1, 0⟩ : V3 ℝ) ⟨0, 0, 0⟩ = ⟨0, 0, 0⟩ by
        norm_num [crossV], hz]
  have hd := addRing_data emptyVFS ⟨0, 0, 0⟩ 1 1 ⟨0, -1, 0⟩ 1
  rw [hU, hV] at hd
  have hd' : (addRing emptyVFS ⟨0, 0, 0⟩ 1 1 ⟨0, -1, 0⟩ 1).data
      = [⟨⟨0, 0, 0⟩, 0⟩] := by
    rw [hd]
    norm_num [List.range_succ, smulV, V3add_def, emptyVFS]
  rw [hd']
  constructor
  · rfl
  · norm_num [lget, List.getD, normSq, dotV, V3sub_def]

/-- C4 (amended): for every center, circulation, radius, count `N`, and
unit normal other than the exact antiparallel `(0,-1,0)`, `addRing`
appends exactly `N` particles, leaves existing records unchanged, and
appends one segment carrying the given circulation with index list
exactly the `N` new store indices in insertion order; each new particle
lies at distance `radius` from the center in the plane orthogonal to the
normal, and consecutive particles are spaced at equal angle `2*pi/N`. -/
theorem c4_amended (s : VFS ℝ) (position : V3 ℝ) (circ radius : ℝ)
    (n : V3 ℝ) (N : ℕ) (hunit : normSq n = 1)
    (hnot : n ≠ ⟨0, -1, 0⟩) :
    (addRing s position circ radius n N).data.length
        = s.data.length + N ∧
      (∀ j, j < s.data.length →
        lget (addRing s position circ radius n N).data j dfltP
          = lget s.data j dfltP) ∧
      (addRing s position circ radius n N).segments
        = s.segments ++ [⟨circ, (List.range N).map
            (fun t => ((s.data.length + t : ℕ) : ℤ)), 0⟩] ∧
      (∀ t, t < N →
        normSq ((lget (addRing s position circ radius n N).data
            (s.data.length + t) dfltP).pos - position)
          = radius * radius ∧
        dotV ((lget (addRing s position circ radius n N).data
            (s.data.length + t) dfltP).pos - position) n = 0) ∧
      (∀ t, t + 1 < N →
        dotV ((lget (addRing s position circ radius n N).data
            (s.data.length + t) dfltP).pos - position)
          ((lget (addRing s position circ radius n N).data
            (s.data.length + (t + 1)) dfltP).pos - position)
          = radius * radius * Real.cos (1 / (N : ℝ) * Real.pi * 2)) := by
  have hd := addRing_data s position circ radius n N
  have hpt : ∀ t, t < N →
      (lget (addRing s position circ radius n N).data
          (s.data.length + t) dfltP).pos - position
        = smulV (radius * Real.cos ((t : ℝ) / (N : ℝ) * Real.pi * 2))
            (ringU n) +
          smulV (radius * Real.sin ((t : ℝ) / (N : ℝ) * Real.pi * 2))
            (ringV n) := by
    intro t ht
    rw [hd, lget_append_right, lget_map _ _ t dfltP 0 (by simpa using ht),
      lget_range N t 0 ht]
    show (position + smulV radius _) - position = _
    rw [V3_add_sub_cancel, smul_lincomb]
  refine ⟨?_, ?_, addRing_segments s position circ radius n N, ?_, ?_⟩
  · rw [hd]
    simp
  · intro j hj
    rw [hd, lget_append_left _ _ _ _ hj]
  · intro t ht
    rw [hpt t ht]
    constructor
    · rw [normSq_lincomb, ringU_unit n hunit hnot,
        ringV_unit n hunit hnot, ringUV_orth n hunit hnot]
      linear_combination (radius * radius) *
        Real.sin_sq_add_cos_sq ((t : ℝ) / (N : ℝ) * Real.pi * 2)
    · rw [dotV_lincomb, ringU_orth n hunit, ringV_orth n hunit hnot]
      ring
  · intro t ht
    rw [hpt t (by omega), hpt (t + 1) ht, dotV_lincomb2,
      ringU_unit n hunit hnot, ringV_unit n hunit hnot,
      ringUV_orth n hunit hnot]
    have e1 : ((t + 1 : ℕ) : ℝ) / (N : ℝ) * Real.pi * 2
        - ((t : ℕ) : ℝ) / (N : ℝ) * Real.pi * 2
          = 1 / (N : ℝ) * Real.pi * 2 := by
      push_cast
      ring
    rw [← e1, Real.cos_sub]
    ring

/-- Closed witness for `c4_amended` at the unit normal `(0,0,1)`. -/
theorem c4_amended_witness :
    normSq (⟨0, 0, 1⟩ : V3 ℝ) = 1 ∧
      (⟨0, 0, 1⟩ : V3 ℝ) ≠ ⟨0, -1, 0⟩ ∧
      ((addRing (emptyVFS : VFS ℝ) ⟨0, 0, 0⟩ 1 1 ⟨0, 0, 1⟩ 1).data.length
          = (emptyVFS : VFS ℝ).data.length + 1 ∧
        (∀ j, j < (emptyVFS : VFS ℝ).data.length →
          lget (addRing (emptyVFS : VFS ℝ) ⟨0, 0, 0⟩ 1 1 ⟨0, 0, 1⟩ 1).data j dfltP
            = lget (emptyVFS : VFS ℝ).data j dfltP) ∧
        (addRing (emptyVFS : VFS ℝ) ⟨0, 0, 0⟩ 1 1 ⟨0, 0, 1⟩ 1).segments
          = (emptyVFS : VFS ℝ).segments ++ [⟨1, (List.range 1).map
              (fun t => (((emptyVFS : VFS ℝ).data.length + t : ℕ) : ℤ)), 0⟩] ∧
        (∀ t, t < 1 →
          normSq ((lget (addRing (emptyVFS : VFS ℝ) ⟨0, 0, 0⟩ 1 1 ⟨0, 0, 1⟩ 1).data
              ((emptyVFS : VFS ℝ).data.length + t) dfltP).pos - ⟨0, 0, 0⟩)
            = 1 * 1 ∧
          dotV ((lget (addRing (emptyVFS : VFS ℝ) ⟨0, 0, 0⟩ 1 1 ⟨0, 0, 1⟩ 1).data
              ((emptyVFS : VFS ℝ).data.length + t) dfltP).pos - ⟨0, 0, 0⟩)
            ⟨0, 0, 1⟩ = 0) ∧
        (∀ t, t + 1 < 1 →
          dotV ((lget (addRing (emptyVFS : VFS ℝ) ⟨0, 0, 0⟩ 1 1 ⟨0, 0, 1⟩ 1).data
              ((emptyVFS : VFS ℝ).data.length + t) dfltP).pos - ⟨0, 0, 0⟩)
            ((lget (addRing (emptyVFS : VFS ℝ) ⟨0, 0, 0⟩ 1 1 ⟨0, 0, 1⟩ 1).data
              ((emptyVFS : VFS ℝ).data.length + (t + 1)) dfltP).pos - ⟨0, 0, 0⟩)
            = 1 * 1 * Real.cos (1 / ((1 : ℕ) : ℝ) * Real.pi * 2))) :=
  ⟨by norm_num [normSq, dotV], by norm_num [V3.mk.injEq],
    c4_amended (emptyVFS : VFS ℝ) ⟨0, 0, 0⟩ 1 1 ⟨0, 0, 1⟩ 1
      (by norm_num [normSq, dotV]) (by norm_num [V3.mk.injEq])⟩

/-- C3: in `doublyDiscreteUpdate`, the per-ring step either succeeds
(both Darboux transforms converge and the result is written back with
no diagnostic), or — when the forward or the backward power iteration
fails within 100 iterations — leaves the particle data exactly
unchanged and emits a diagnostic message; the step is a total function,
so the enclosing loop always continues with the next ring. -/
theorem c3_darboux_failure_skips_ring (dt reg : ℝ)
    (dat : List (BasicParticleData ℝ)) (rg : VortexRing ℝ) :
    (∃ eta g, darboux (ringGamma dat rg) (ddEll dt reg dat rg)
        (ddRa dt reg dat rg) = some eta ∧
      darboux eta (ddEll dt reg dat rg) (-ddRa dt reg dat rg) = some g ∧
      ringStep dt reg dat rg = (writeBack dat rg g, [])) ∨
    ((ringStep dt reg dat rg).1 = dat ∧
      (ringStep dt reg dat rg).2 ≠ []) := by
  unfold ringStep
  cases hf : darboux (ringGamma dat rg) (ddEll dt reg dat rg)
      (ddRa dt reg dat rg) with
  | none => right; exact ⟨rfl, by simp⟩
  | some eta =>
    dsimp only
    cases hb : darboux eta (ddEll dt reg dat rg)
        (-ddRa dt reg dat rg) with
    | none => right; exact ⟨rfl, by simp⟩
    | some g => left; exact ⟨eta, g, hf ▸ rfl, hb ▸ rfl, rfl⟩

/-- Closed witness for `c3_darboux_failure_skips_ring` at a trivial
system. -/
theorem c3_witness :
    (∃ eta g, darboux (ringGamma [] dfltR) (ddEll 0 0 [] dfltR)
        (ddRa 0 0 [] dfltR) = some eta ∧
      darboux eta (ddEll 0 0 [] dfltR) (-ddRa 0 0 [] dfltR) = some g ∧
      ringStep 0 0 [] dfltR = (writeBack [] dfltR g, [])) ∨
    ((ringStep 0 0 [] dfltR).1 = [] ∧
      (ringStep 0 0 [] dfltR).2 ≠ []) :=
  c3_darboux_failure_skips_ring 0 0 [] dfltR

theorem pureQuat_conj (ax ay az tx ty tz : ℝ)
    (hD : ax * ax + ay * ay + az * az ≠ 0) :
    quatImag (quatMul (quatMul ⟨0, ax, ay, az⟩ ⟨0, tx, ty, tz⟩)
        (quatInverse ⟨0, ax, ay, az⟩))
      = ⟨2 * (ax * tx + ay * ty + az * tz)
            / (ax * ax + ay * ay + az * az) * ax - tx,
          2 * (ax * tx + ay * ty + az * tz)
            / (ax * ax + ay * ay + az * az) * ay - ty,
          2 * (ax * tx + ay * ty + az * tz)
            / (ax * ax + ay * ay + az * az) * az - tz⟩ := by
  unfold quatMul quatInverse quatImag quatNormSq
  simp only [V3.mk.injEq]
  have hD' : (0 : ℝ) * 0 + ax * ax + ay * ay + az * az ≠ 0 := by
    intro h
    apply hD
    linarith
  refine ⟨?_, ?_, ?_⟩ <;> · field_simp; ring

theorem darbouxStep_r0 (S lT : V3 ℝ) (hn : normSq lT = normSq S)
    (hd : dotV lT S ≠ normSq S) :
    darbouxStep S lT 0 = ⟨-S.x, -S.y, -S.z⟩ := by
  have hden : normSq (lT - S) ≠ 0 := by
    intro h
    apply hd
    cases S; cases lT
    simp only [normSq, dotV, V3sub_def] at *
    nlinarith [h, hn]
  cases S with | mk sx sy sz =>
  cases lT with | mk tx ty tz =>
  simp only [normSq, dotV, V3sub_def] at hn hd hden
  have hD : (tx - sx) * (tx - sx) + (ty - sy) * (ty - sy)
      + (tz - sz) * (tz - sz) ≠ 0 := hden
  have hkey : (tx - sx) * (tx - sx) + (ty - sy) * (ty - sy)
      + (tz - sz) * (tz - sz)
        = 2 * ((tx - sx) * tx + (ty - sy) * ty + (tz - sz) * tz) := by
    linear_combination -hn
  unfold darbouxStep vecQuat
  simp only [V3sub_def, neg_zero]
  rw [pureQuat_conj (tx - sx) (ty - sy) (tz - sz) tx ty tz hD]
  have hc : 2 * ((tx - sx) * tx + (ty - sy) * ty + (tz - sz) * tz)
      / ((tx - sx) * (tx - sx) + (ty - sy) * (ty - sy)
          + (tz - sz) * (tz - sz)) = 1 := by
    rw [hkey]
    have h2 : 2 * ((tx - sx) * tx + (ty - sy) * ty + (tz - sz) * tz)
        ≠ 0 := by
      rw [← hkey]
      exact hD
    exact div_self h2
  simp only [V3.mk.injEq]
  rw [hc]
  refine ⟨by ring, by ring, by ring⟩

theorem sq_stepA : darbouxStep ⟨-1, 1, 0⟩ ⟨0, 0, Real.sqrt 2⟩ 0
    = (⟨1, -1, 0⟩ : V3 ℝ) := by
  rw [darbouxStep_r0 ⟨-1, 1, 0⟩ ⟨0, 0, Real.sqrt 2⟩
    (by norm_num [normSq, dotV,
      Real.mul_self_sqrt (show (0 : ℝ) ≤ 2 by norm_num)])
    (by norm_num [normSq, dotV])]
  norm_num [V3.mk.injEq]

theorem sq_stepB : darbouxStep ⟨-1, -1, 0⟩ ⟨1, -1, 0⟩ 0
    = (⟨1, 1, 0⟩ : V3 ℝ) := by
  rw [darbouxStep_r0 ⟨-1, -1, 0⟩ ⟨1, -1, 0⟩
    (by norm_num [normSq, dotV]) (by norm_num [normSq, dotV])]
  norm_num [V3.mk.injEq]

theorem sq_stepC : darbouxStep ⟨1, -1, 0⟩ ⟨1, 1, 0⟩ 0
    = (⟨-1, 1, 0⟩ : V3 ℝ) := by
  rw [darbouxStep_r0 ⟨1, -1, 0⟩ ⟨1, 1, 0⟩
    (by norm_num [normSq, dotV]) (by norm_num [normSq, dotV])]
  norm_num [V3.mk.injEq]

theorem sq_stepD : darbouxStep ⟨1, 1, 0⟩ ⟨-1, 1, 0⟩ 0
    = (⟨-1, -1, 0⟩ : V3 ℝ) := by
  rw [darbouxStep_r0 ⟨1, 1, 0⟩ ⟨-1, 1, 0⟩
    (by norm_num [normSq, dotV]) (by norm_num [normSq, dotV])]
  norm_num [V3.mk.injEq]

theorem sq_stepE : darbouxStep ⟨-1, 1, 0⟩ ⟨-1, -1, 0⟩ 0
    = (⟨1, -1, 0⟩ : V3 ℝ) := by
  rw [darbouxStep_r0 ⟨-1, 1, 0⟩ ⟨-1, -1, 0⟩
    (by norm_num [normSq, dotV]) (by norm_num [normSq, dotV])]
  norm_num [V3.mk.injEq]

theorem sq_stepF : darbouxStep ⟨1, 1, 0⟩ ⟨0, 0, Real.sqrt 2⟩ 0
    = (⟨-1, -1, 0⟩ : V3 ℝ) := by
  rw [darbouxStep_r0 ⟨1, 1, 0⟩ ⟨0, 0, Real.sqrt 2⟩
    (by norm_num [normSq, dotV,
      Real.mul_self_sqrt (show (0 : ℝ) ≤ 2 by norm_num)])
    (by norm_num [normSq, dotV])]
  norm_num [V3.mk.injEq]

theorem monodromy_sqGamma (lT : V3 ℝ) :
    monodromy sqGamma lT 0
      = darbouxStep ((⟨1, 0, 0⟩ : V3 ℝ) - ⟨0, -1, 0⟩)
          (darbouxStep ((⟨0, -1, 0⟩ : V3 ℝ) - ⟨-1, 0, 0⟩)
            (darbouxStep ((⟨-1, 0, 0⟩ : V3 ℝ) - ⟨0, 1, 0⟩)
              (darbouxStep ((⟨0, 1, 0⟩ : V3 ℝ) - ⟨1, 0, 0⟩) lT 0) 0) 0)
          0 := rfl

theorem monodromy_sqEta (lT : V3 ℝ) :
    monodromy sqEta lT 0
      = darbouxStep ((⟨0, -1, 0⟩ : V3 ℝ) - ⟨-1, 0, 0⟩)
          (darbouxStep ((⟨-1, 0, 0⟩ : V3 ℝ) - ⟨0, 1, 0⟩)
            (darbouxStep ((⟨0, 1, 0⟩ : V3 ℝ) - ⟨1, 0, 0⟩)
              (darbouxStep ((⟨1, 0, 0⟩ : V3 ℝ) - ⟨0, -1, 0⟩) lT 0) 0) 0)
          0 := rfl

theorem sqe0 : ((⟨0, 1, 0⟩ : V3 ℝ) - ⟨1, 0, 0⟩) = ⟨-1, 1, 0⟩ := by
  norm_num [V3sub_def]

theorem sqe1 : ((⟨-1, 0, 0⟩ : V3 ℝ) - ⟨0, 1, 0⟩) = ⟨-1, -1, 0⟩ := by
  norm_num [V3sub_def]

theorem sqe2 : ((⟨0, -1, 0⟩ : V3 ℝ) - ⟨-1, 0, 0⟩) = ⟨1, -1, 0⟩ := by
  norm_num [V3sub_def]

theorem sqe3 : ((⟨1, 0, 0⟩ : V3 ℝ) - ⟨0, -1, 0⟩) = ⟨1, 1, 0⟩ := by
  norm_num [V3sub_def]

theorem monodromy_sqGamma_start :
    monodromy sqGamma ⟨0, 0, Real.sqrt 2⟩ 0 = ⟨-1, -1, 0⟩ := by
  rw [monodromy_sqGamma, sqe0, sqe1, sqe2, sqe3, sq_stepA, sq_stepB,
    sq_stepC, sq_stepD]

theorem monodromy_sqGamma_fix :
    monodromy sqGamma ⟨-1, -1, 0⟩ 0 = ⟨-1, -1, 0⟩ := by
  rw [monodromy_sqGamma, sqe0, sqe1, sqe2, sqe3, sq_stepE, sq_stepB,
    sq_stepC, sq_stepD]

theorem monodromy_sqEta_start :
    monodromy sqEta ⟨0, 0, Real.sqrt 2⟩ 0 = ⟨-1, 1, 0⟩ := by
  rw [monodromy_sqEta, sqe0, sqe1, sqe2, sqe3, sq_stepF, sq_stepE,
    sq_stepB, sq_stepC]

theorem monodromy_sqEta_fix :
    monodromy sqEta ⟨-1, 1, 0⟩ 0 = ⟨-1, 1, 0⟩ := by
  rw [monodromy_sqEta, sqe0, sqe1, sqe2, sqe3, sq_stepD, sq_stepE,
    sq_stepB, sq_stepC]

theorem powerLoop_succ (gamma : List (V3 ℝ)) (r : ℝ) (k : ℕ)
    (lT : V3 ℝ) :
    powerLoop gamma r (k + 1) lT
      = if normV (monodromy gamma lT r - lT) < 1e-4 then
          some (monodromy gamma lT r)
        else powerLoop gamma r k (monodromy gamma lT r) := rfl

theorem normV_matches_2 (v : V3 ℝ) (h : normSq v = 4) : normV v = 2 := by
  unfold normV
  rw [h, show (4 : ℝ) = 2 ^ 2 by norm_num,
    Real.sqrt_sq (by norm_num : (0 : ℝ) ≤ 2)]

theorem normV_self_zero (v : V3 ℝ) : normV (v - v) = 0 := by
  have h : normSq (v - v) = 0 := by
    cases v
    norm_num [normSq, dotV, V3sub_def]
  unfold normV
  rw [h, Real.sqrt_zero]

theorem powerMethod_sqGamma :
    powerMethod sqGamma (Real.sqrt 2) 0 = some ⟨-1, -1, 0⟩ := by
  have hs : Real.sqrt 2 * Real.sqrt 2 = 2 :=
    Real.mul_self_sqrt (by norm_num)
  have h4 : normSq ((⟨-1, -1, 0⟩ : V3 ℝ) - ⟨0, 0, Real.sqrt 2⟩) = 4 := by
    simp only [normSq, dotV, V3sub_def]
    linear_combination hs
  show powerLoop sqGamma 0 100 ⟨0, 0, Real.sqrt 2⟩ = _
  rw [show (100 : ℕ) = 99 + 1 from rfl, powerLoop_succ,
    monodromy_sqGamma_start,
    if_neg (by rw [normV_matches_2 _ h4]; norm_num),
    show (99 : ℕ) = 98 + 1 from rfl, powerLoop_succ,
    monodromy_sqGamma_fix, if_pos (by rw [normV_self_zero]; norm_num)]

theorem powerMethod_sqEta :
    powerMethod sqEta (Real.sqrt 2) 0 = some ⟨-1, 1, 0⟩ := by
  have hs : Real.sqrt 2 * Real.sqrt 2 = 2 :=
    Real.mul_self_sqrt (by norm_num)
  have h4 : normSq ((⟨-1, 1, 0⟩ : V3 ℝ) - ⟨0, 0, Real.sqrt 2⟩) = 4 := by
    simp only [normSq, dotV, V3sub_def]
    linear_combination hs
  show powerLoop sqEta 0 100 ⟨0, 0, Real.sqrt 2⟩ = _
  rw [show (100 : ℕ) = 99 + 1 from rfl, powerLoop_succ,
    monodromy_sqEta_start,
    if_neg (by rw [normV_matches_2 _ h4]; norm_num),
    show (99 : ℕ) = 98 + 1 from rfl, powerLoop_succ,
    monodromy_sqEta_fix, if_pos (by rw [normV_self_zero]; norm_num)]

theorem darboux_sqGamma :
    darboux sqGamma (Real.sqrt 2) 0 = some sqEta := by
  unfold darboux
  rw [powerMethod_sqGamma]
  show some (darbouxLoop sqGamma 0 sqGamma.length 0 ⟨-1, -1, 0⟩) = _
  rw [Option.some.injEq]
  have f4 : darbouxLoop sqGamma 0 sqGamma.length 0 ⟨-1, -1, 0⟩
      = ((⟨1, 0, 0⟩ : V3 ℝ) + ⟨-1, -1, 0⟩) :: darbouxLoop sqGamma 0 3 1
          (darbouxStep ((⟨0, 1, 0⟩ : V3 ℝ) - ⟨1, 0, 0⟩)
            ⟨-1, -1, 0⟩ 0) := rfl
  rw [f4, sqe0, sq_stepE]
  have f3 : darbouxLoop sqGamma 0 3 1 ⟨1, -1, 0⟩
      = ((⟨0, 1, 0⟩ : V3 ℝ) + ⟨1, -1, 0⟩) :: darbouxLoop sqGamma 0 2 2
          (darbouxStep ((⟨-1, 0, 0⟩ : V3 ℝ) - ⟨0, 1, 0⟩)
            ⟨1, -1, 0⟩ 0) := rfl
  rw [f3, sqe1, sq_stepB]
  have f2 : darbouxLoop sqGamma 0 2 2 ⟨1, 1, 0⟩
      = ((⟨-1, 0, 0⟩ : V3 ℝ) + ⟨1, 1, 0⟩) :: darbouxLoop sqGamma 0 1 3
          (darbouxStep ((⟨0, -1, 0⟩ : V3 ℝ) - ⟨-1, 0, 0⟩)
            ⟨1, 1, 0⟩ 0) := rfl
  rw [f2, sqe2, sq_stepC]
  have f1 : darbouxLoop sqGamma 0 1 3 ⟨-1, 1, 0⟩
      = ((⟨0, -1, 0⟩ : V3 ℝ) + ⟨-1, 1, 0⟩) :: ([] : List (V3 ℝ)) := rfl
  rw [f1]
  norm_num [V3add_def, sqEta, V3.mk.injEq]

theorem darboux_sqEta :
    darboux sqEta (Real.sqrt 2) 0 = some sqG2 := by
  unfold darboux
  rw [powerMethod_sqEta]
  show some (darbouxLoop sqEta 0 sqEta.length 0 ⟨-1, 1, 0⟩) = _
  rw [Option.some.injEq]
  have f4 : darbouxLoop sqEta 0 sqEta.length 0 ⟨-1, 1, 0⟩
      = ((⟨0, -1, 0⟩ : V3 ℝ) + ⟨-1, 1, 0⟩) :: darbouxLoop sqEta 0 3 1
          (darbouxStep ((⟨1, 0, 0⟩ : V3 ℝ) - ⟨0, -1, 0⟩)
            ⟨-1, 1, 0⟩ 0) := rfl
  rw [f4, sqe3, sq_stepD]
  have f3 : darbouxLoop sqEta 0 3 1 ⟨-1, -1, 0⟩
      = ((⟨1, 0, 0⟩ : V3 ℝ) + ⟨-1, -1, 0⟩) :: darbouxLoop sqEta 0 2 2
          (darbouxStep ((⟨0, 1, 0⟩ : V3 ℝ) - ⟨1, 0, 0⟩)
            ⟨-1, -1, 0⟩ 0) := rfl
  rw [f3, sqe0, sq_stepE]
  have f2 : darbouxLoop sqEta 0 2 2 ⟨1, -1, 0⟩
      = ((⟨0, 1, 0⟩ : V3 ℝ) + ⟨1, -1, 0⟩) :: darbouxLoop sqEta 0 1 3
          (darbouxStep ((⟨-1, 0, 0⟩ : V3 ℝ) - ⟨0, 1, 0⟩)
            ⟨1, -1, 0⟩ 0) := rfl
  rw [f2, sqe1, sq_stepB]
  have f1 : darbouxLoop sqEta 0 1 3 ⟨1, 1, 0⟩
      = ((⟨-1, 0, 0⟩ : V3 ℝ) + ⟨1, 1, 0⟩) :: ([] : List (V3 ℝ)) := rfl
  rw [f1]
  norm_num [V3add_def, sqG2, V3.mk.injEq]

/-- C7 is refuted: on the planar regular 4-gon (the unit square) with
companion edge length `l = sqrt 2` and `r = 0`, both Darboux transforms
of the forward+backward round trip converge, but the returned nodes are
the input cyclically shifted by two positions: node 0 moves from
`(1,0,0)` to `(-1,0,0)` — a displacement of 2, far beyond any numerical
tolerance, so the `r = 0` case is not the identity on node positions. -/
theorem c7_r0_roundtrip_moves_nodes :
    darboux sqGamma (Real.sqrt 2) 0 = some sqEta ∧
      darboux sqEta (Real.sqrt 2) (-0) = some sqG2 ∧
      lget sqG2 0 ⟨0, 0, 0⟩ - lget sqGamma 0 ⟨0, 0, 0⟩ = ⟨-2, 0, 0⟩ := by
  refine ⟨darboux_sqGamma, ?_, ?_⟩
  · rw [show (-0 : ℝ) = 0 from neg_zero]
    exact darboux_sqEta
  · show (⟨-1, 0, 0⟩ : V3 ℝ) - ⟨1, 0, 0⟩ = ⟨-2, 0, 0⟩
    norm_num [V3sub_def]

/-- C7 (amended): on the planar regular 4-gon with zero displacement
(`r = 0`), the forward and backward Darboux transforms both converge and
the round trip returns the same cyclic curve shifted by two vertices —
the node set is preserved as a cyclic sequence, but the transform is a
cyclic shift, not the pointwise identity. -/
theorem c7_amended :
    darboux sqGamma (Real.sqrt 2) 0 = some sqEta ∧
      darboux sqEta (Real.sqrt 2) (-0) = some sqG2 ∧
      (∀ i, i < 4 → lget sqG2 i ⟨0, 0, 0⟩
        = lget sqGamma ((i + 2) % 4) ⟨0, 0, 0⟩) ∧
      sqG2 ≠ sqGamma := by
  refine ⟨darboux_sqGamma,
    by rw [show (-0 : ℝ) = 0 from neg_zero]; exact darboux_sqEta,
    ?_, ?_⟩
  · intro i hi
    interval_cases i <;> rfl
  · intro h
    have hx := congrArg (fun L => (lget L 0 (⟨0, 0, 0⟩ : V3 ℝ)).x) h
    norm_num [sqG2, sqGamma, lget, List.getD] at hx

end Manta
